import Mathlib

/-! # datacollector-edge: pipeline manager, HTTP destination, dev-random origin, file spooler

A shallow embedding of the Go sources

* `container/execution/manager/pipeline_manager.go`
* `stages/destinations/http/http.go`
* `stages/origins/dev_random/dev_random.go`
* `stages/origins/spooler/spooler_test.go` (the spooler origin itself is not part of the
  sources; it is modelled from the specification and replayed against the tests)

Go values are modelled as follows: a pointer is an optional heap address (`none` is `nil`),
an `error` is an optional message (`none` is `nil`), a `panic` is `Except.error`, a Go map is
an association list with overwrite on assignment, and code of other packages that a function
calls is a parameter of its model.
-/

set_option autoImplicit false

/-! ## Go maps -/

namespace GoMap

/-- Assignment `m[k] = v` of a Go map: the binding of `k` is replaced, all others are kept. -/
def set {α : Type} (m : List (String × α)) (k : String) (v : α) : List (String × α) :=
  (k, v) :: m.filter (fun e => e.1 != k)

/-- Lookup of a key of a Go map, `none` when the key has no binding. -/
def find {α : Type} (m : List (String × α)) (k : String) : Option α :=
  (m.find? (fun e => e.1 == k)).map (fun e => e.2)

end GoMap

/-! ## container/execution/manager/pipeline_manager.go -/

namespace manager

/-- A `*runner.StandaloneRunner`: `none` is the nil pointer, `some a` the runner object that
lives at address `a` of the heap. -/
abbrev RunnerPtr := Option Nat

/-- The part of the Go heap that holds the runner objects, with the record of the calls made
to `runner.NewStandaloneRunner` (the pipeline id of each call, oldest first). -/
structure Heap (ρ : Type) where
  runners : List ρ
  constructed : List String

/-- The struct `PipelineManager`. -/
structure PipelineManager (C I S : Type) where
  config : C
  runnerMap : List (String × RunnerPtr)
  runtimeInfo : I
  pipelineStoreTask : S

/-- The functions of package `runner` that the manager calls. They are not part of the
sources and are parameters of the model. `NewStandaloneRunner` returns the Go pair
(runner, error); each operation of a runner takes the runner object and returns the object
after the call together with the values the Go method returns. -/
structure RunnerPkg (C I S P A E ρ : Type) where
  NewStandaloneRunner : String → C → I → S → Option ρ × Option String
  StartPipeline : ρ → P → ρ × A
  StopPipeline : ρ → ρ × A
  ResetOffset : ρ → ρ × E

/-- The expression `p.runnerMap[pipelineId]`: the zero value nil for a key without binding. -/
def lookup {C I S : Type} (p : PipelineManager C I S) (pipelineId : String) : RunnerPtr :=
  (GoMap.find p.runnerMap pipelineId).getD none

/-- Storing a freshly constructed runner object: a nil result stays nil, an object is put at
the first free address. -/
def alloc {ρ : Type} (h : Heap ρ) (r : Option ρ) : RunnerPtr × Heap ρ :=
  match r with
  | none => (none, h)
  | some o => (some h.runners.length, { h with runners := h.runners ++ [o] })

/-- `func (p *PipelineManager) GetRunner(pipelineId string) *runner.StandaloneRunner`.
The result is the returned pointer with the manager and the heap after the call;
`Except.error` is the panic of line 21. -/
def GetRunner {C I S P A E ρ : Type} (R : RunnerPkg C I S P A E ρ)
    (p : PipelineManager C I S) (h : Heap ρ) (pipelineId : String) :
    Except String (RunnerPtr × PipelineManager C I S × Heap ρ) :=
  if lookup p pipelineId = none then
    let res := R.NewStandaloneRunner pipelineId p.config p.runtimeInfo p.pipelineStoreTask
    let h1 : Heap ρ := { h with constructed := h.constructed ++ [pipelineId] }
    match res.2 with
    | some err => Except.error err
    | none =>
      let a := alloc h1 res.1
      let p1 : PipelineManager C I S :=
        { p with runnerMap := GoMap.set p.runnerMap pipelineId a.1 }
      Except.ok (lookup p1 pipelineId, p1, a.2)
  else
    Except.ok (lookup p pipelineId, p, h)

/-- A method call on the runner a pointer refers to: the call on a nil pointer (or on an
address that holds no object) is a nil-pointer panic, otherwise the object is replaced by
its state after the call. -/
def callRunner {ρ β : Type} (h : Heap ρ) (ptr : RunnerPtr) (f : ρ → ρ × β) :
    Except String (β × Heap ρ) :=
  match ptr with
  | none => Except.error "invalid memory address or nil pointer dereference"
  | some a =>
    match h.runners.get? a with
    | none => Except.error "invalid memory address or nil pointer dereference"
    | some o => Except.ok ((f o).2, { h with runners := h.runners.set a (f o).1 })

/-- `func (p *PipelineManager) StartPipeline(pipelineId, runtimeParameters)`. -/
def StartPipeline {C I S P A E ρ : Type} (R : RunnerPkg C I S P A E ρ)
    (p : PipelineManager C I S) (h : Heap ρ) (pipelineId : String) (runtimeParameters : P) :
    Except String (A × PipelineManager C I S × Heap ρ) :=
  match GetRunner R p h pipelineId with
  | Except.error e => Except.error e
  | Except.ok (ptr, p1, h1) =>
    match callRunner h1 ptr (fun o => R.StartPipeline o runtimeParameters) with
    | Except.error e => Except.error e
    | Except.ok (a, h2) => Except.ok (a, p1, h2)

/-- `func (p *PipelineManager) StopPipeline(pipelineId string)`. -/
def StopPipeline {C I S P A E ρ : Type} (R : RunnerPkg C I S P A E ρ)
    (p : PipelineManager C I S) (h : Heap ρ) (pipelineId : String) :
    Except String (A × PipelineManager C I S × Heap ρ) :=
  match GetRunner R p h pipelineId with
  | Except.error e => Except.error e
  | Except.ok (ptr, p1, h1) =>
    match callRunner h1 ptr R.StopPipeline with
    | Except.error e => Except.error e
    | Except.ok (a, h2) => Except.ok (a, p1, h2)

/-- `func (p *PipelineManager) ResetOffset(pipelineId string) error`. -/
def ResetOffset {C I S P A E ρ : Type} (R : RunnerPkg C I S P A E ρ)
    (p : PipelineManager C I S) (h : Heap ρ) (pipelineId : String) :
    Except String (E × PipelineManager C I S × Heap ρ) :=
  match GetRunner R p h pipelineId with
  | Except.error e => Except.error e
  | Except.ok (ptr, p1, h1) =>
    match callRunner h1 ptr R.ResetOffset with
    | Except.error e => Except.error e
    | Except.ok (a, h2) => Except.ok (a, p1, h2)

/-- `func NewManager(config, runtimeInfo, pipelineStoreTask) (*PipelineManager, error)`:
the manager with an empty runner map (the returned error is always nil). -/
def NewManager {C I S : Type} (config : C) (runtimeInfo : I) (pipelineStoreTask : S) :
    PipelineManager C I S :=
  { config := config, runnerMap := [], runtimeInfo := runtimeInfo,
    pipelineStoreTask := pipelineStoreTask }

/-- One call of the control surface of the manager. -/
inductive Op (P : Type) where
  | getRunner (pipelineId : String)
  | startPipeline (pipelineId : String) (runtimeParameters : P)
  | stopPipeline (pipelineId : String)
  | resetOffset (pipelineId : String)

/-- The pipeline id an operation is called with. -/
def Op.id {P : Type} : Op P → String
  | Op.getRunner i => i
  | Op.startPipeline i _ => i
  | Op.stopPipeline i => i
  | Op.resetOffset i => i

/-- The manager and the heap after one operation, the returned values dropped. -/
def step {C I S P A E ρ : Type} (R : RunnerPkg C I S P A E ρ)
    (s : PipelineManager C I S × Heap ρ) (op : Op P) :
    Except String (PipelineManager C I S × Heap ρ) :=
  match op with
  | Op.getRunner i => (GetRunner R s.1 s.2 i).map (fun r => r.2)
  | Op.startPipeline i rp => (StartPipeline R s.1 s.2 i rp).map (fun r => r.2)
  | Op.stopPipeline i => (StopPipeline R s.1 s.2 i).map (fun r => r.2)
  | Op.resetOffset i => (ResetOffset R s.1 s.2 i).map (fun r => r.2)

/-- A sequence of operations, run in order; a panic ends the run. -/
def run {C I S P A E ρ : Type} (R : RunnerPkg C I S P A E ρ)
    (s : PipelineManager C I S × Heap ρ) : List (Op P) →
    Except String (PipelineManager C I S × Heap ρ)
  | [] => Except.ok s
  | op :: ops =>
    match step R s op with
    | Except.error e => Except.error e
    | Except.ok s1 => run R s1 ops

end manager


namespace manager

/-- A small runner package for the worked examples: a runner object is its pipeline id with
the number of starts since the last reset, and construction fails for the empty id. -/
def exampleRunners : RunnerPkg Unit Unit Unit Unit Nat Bool (String × Nat) :=
  { NewStandaloneRunner := fun i _ _ _ =>
      if i = "" then (none, some "no pipeline id") else (some (i, 0), none)
    StartPipeline := fun o _ => ((o.1, o.2 + 1), o.2 + 1)
    StopPipeline := fun o => (o, o.2)
    ResetOffset := fun o => ((o.1, 0), true) }

/-- The state of the examples: a fresh manager and a heap without runners. -/
def exampleStart : PipelineManager Unit Unit Unit × Heap (String × Nat) :=
  (NewManager () () (), { runners := [], constructed := [] })

end manager

/-! ## stages/destinations/http/http.go -/

namespace http

/-- A dynamically typed Go value (`interface{}`), as far as the stage tells the types apart:
strings, booleans, numbers, slices `[]interface{}`, maps `map[string]interface{}`, the nil
interface, and values of any other Go type (named by that type). -/
inductive Value where
  | str (s : String)
  | bool (b : Bool)
  | num (n : Int)
  | list (xs : List Value)
  | map (kvs : List (String × Value))
  | null
  | other (goType : String)

/-- One entry `common.Config` of the flat configuration list of a stage. -/
structure Config where
  Name : String
  Value : Value

/-- The stage context handed to `Init`: the configuration list of the stage and the
resolution of a configured value against the runtime parameters. -/
structure StageContext where
  Configuration : List Config
  GetResolvedValue : Value → Value

/-- The fields of the struct `HttpClientDestination`. -/
structure HttpClientDestination where
  resourceUrl : String
  headers : List Value
  singleRequestPerBatch : Bool
  httpCompression : String
  tlsEnabled : Bool
  trustStoreFilePath : String

/-- The zero value of the struct, as the stage creator builds it. -/
def HttpClientDestination.zero : HttpClientDestination :=
  { resourceUrl := "", headers := [], singleRequestPerBatch := false, httpCompression := "",
    tlsEnabled := false, trustStoreFilePath := "" }

/-- The type assertion `v.(string)`, which panics on any other dynamic type. -/
def assertString : Value → Except String String
  | Value.str s => Except.ok s
  | _ => Except.error "interface conversion: interface {} is not string"

/-- The type assertion `v.(bool)`. -/
def assertBool : Value → Except String Bool
  | Value.bool b => Except.ok b
  | _ => Except.error "interface conversion: interface {} is not bool"

/-- The type assertion `v.([]interface{})`. -/
def assertList : Value → Except String (List Value)
  | Value.list xs => Except.ok xs
  | _ => Except.error "interface conversion: interface {} is not []interface {}"

/-- The type assertion `v.(map[string]interface{})`. -/
def assertMap : Value → Except String (List (String × Value))
  | Value.map kvs => Except.ok kvs
  | _ => Except.error "interface conversion: interface {} is not map[string]interface {}"

/-- The body of the loop of `Init` for one configuration entry: six tests of the name in
sequence, each followed by an unchecked type assertion on the resolved value. -/
def initEntry (stageContext : StageContext) (h : HttpClientDestination) (config : Config) :
    Except String HttpClientDestination := do
  let h1 ← if config.Name = "conf.resourceUrl" then
      (assertString (stageContext.GetResolvedValue config.Value)).map
        (fun s => { h with resourceUrl := s })
    else pure h
  let h2 ← if config.Name = "conf.headers" then
      (assertList (stageContext.GetResolvedValue config.Value)).map
        (fun xs => { h1 with headers := xs })
    else pure h1
  let h3 ← if config.Name = "conf.singleRequestPerBatch" then
      (assertBool (stageContext.GetResolvedValue config.Value)).map
        (fun b => { h2 with singleRequestPerBatch := b })
    else pure h2
  let h4 ← if config.Name = "conf.client.httpCompression" then
      (assertString (stageContext.GetResolvedValue config.Value)).map
        (fun s => { h3 with httpCompression := s })
    else pure h3
  let h5 ← if config.Name = "conf.client.tlsConfig.tlsEnabled" then
      (assertBool (stageContext.GetResolvedValue config.Value)).map
        (fun b => { h4 with tlsEnabled := b })
    else pure h4
  if config.Name = "conf.client.tlsConfig.trustStoreFilePath" then
    (assertString (stageContext.GetResolvedValue config.Value)).map
      (fun s => { h5 with trustStoreFilePath := s })
  else pure h5

/-- The loop of `Init` over the configuration list. -/
def initLoop (stageContext : StageContext) :
    List Config → HttpClientDestination → Except String HttpClientDestination
  | [], h => Except.ok h
  | config :: rest, h =>
    match initEntry stageContext h config with
    | Except.error e => Except.error e
    | Except.ok h1 => initLoop stageContext rest h1

/-- `func (h *HttpClientDestination) Init(stageContext api.StageContext) error`.
`baseInit` is the result of `h.BaseStage.Init(stageContext)`, whose code is not part of the
sources. The result is the returned error with the stage after the call; `Except.error` is a
panic. -/
def Init (baseInit : StageContext → Option String) (h : HttpClientDestination)
    (stageContext : StageContext) : Except String (Option String × HttpClientDestination) :=
  match baseInit stageContext with
  | some err => Except.ok (some err, h)
  | none =>
    match initLoop stageContext stageContext.Configuration h with
    | Except.error e => Except.error e
    | Except.ok h1 => Except.ok (none, h1)

/-- The dynamic type `Init` asserts for the resolved value of an option it recognises:
`some "string"`, `some "bool"` or `some "list"`; `none` for a name `Init` does not know. -/
def expectedType (name : String) : Option String :=
  if name = "conf.resourceUrl" then some "string"
  else if name = "conf.headers" then some "list"
  else if name = "conf.singleRequestPerBatch" then some "bool"
  else if name = "conf.client.httpCompression" then some "string"
  else if name = "conf.client.tlsConfig.tlsEnabled" then some "bool"
  else if name = "conf.client.tlsConfig.trustStoreFilePath" then some "string"
  else none

/-- The dynamic type of a value, in the three cases `Init` tells apart. -/
def Value.typeName : Value → String
  | Value.str _ => "string"
  | Value.bool _ => "bool"
  | Value.list _ => "list"
  | _ => "other"

/-- An entry is well typed when it is not a recognised option, or its resolved value has the
type `Init` asserts for it. -/
def wellTyped (stageContext : StageContext) (config : Config) : Prop :=
  ∀ t, expectedType config.Name = some t →
    (stageContext.GetResolvedValue config.Value).typeName = t

/-- What `client.Do` yields for one request: a transport-level failure, or a response with
its status code and status text. -/
inductive Answer where
  | transportError (err : String)
  | response (StatusCode : Int) (Status : String)

/-- The surroundings of the stage: the standard-library functions `json.Marshal`, gzip
compression, the URL check of `http.NewRequest` and `ioutil.ReadFile`, and the answer the
network gives to the request issued as number `n` (counted from 0). -/
structure Env where
  jsonMarshal : Value → Except String String
  gzip : String → String
  validUrl : String → Bool
  readFile : String → Except String String
  answers : Nat → Answer

/-- A request handed to `client.Do`: target, header fields, body and, with TLS enabled, the
certificate file content the client trusts. -/
structure Request where
  url : String
  header : List (String × String)
  body : String
  rootCAs : Option String

/-- The error `sendToSDC` derives from the answer to a request: the transport error, or the
status text of a response whose code is not 200, or nil. -/
def answerError : Answer → Option String
  | Answer.transportError err => some err
  | Answer.response StatusCode Status => if StatusCode ≠ 200 then some Status else none

/-- The loop of `sendToSDC` over the configured headers: each must be a map with string
entries "key" and "value", else the type assertion panics. -/
def setHeaders : List Value → List (String × String) → Except String (List (String × String))
  | [], hdr => Except.ok hdr
  | header :: rest, hdr => do
    let m1 ← assertMap header
    let k ← assertString ((GoMap.find m1 "key").getD Value.null)
    let m2 ← assertMap header
    let v ← assertString ((GoMap.find m2 "value").getD Value.null)
    setHeaders rest (GoMap.set hdr k v)

/-- `func (h *HttpClientDestination) sendToSDC(jsonValue []byte) error`.
`sent` is the list of the requests issued so far; the result pairs the outcome (the returned
error, or a panic) with the list after the call. -/
def sendToSDC (env : Env) (h : HttpClientDestination) (sent : List Request)
    (jsonValue : String) : Except String (Option String) × List Request :=
  let buf := if h.httpCompression = "GZIP" then env.gzip jsonValue else jsonValue
  if env.validUrl h.resourceUrl = false then
    -- `req` is nil and `req.Header` is dereferenced
    (Except.error "invalid memory address or nil pointer dereference", sent)
  else
    match setHeaders h.headers [] with
    | Except.error e => (Except.error e, sent)
    | Except.ok hdr0 =>
      let hdr1 := GoMap.set hdr0 "Content-Type" "application/json;charset=UTF-8"
      let hdr2 := if h.httpCompression = "GZIP" then GoMap.set hdr1 "Content-Encoding" "gzip"
        else hdr1
      let client : Except String (Option String) :=
        if h.tlsEnabled then (env.readFile h.trustStoreFilePath).map some else Except.ok none
      match client with
      | Except.error err => (Except.ok (some err), sent)
      | Except.ok rootCAs =>
        let req : Request :=
          { url := h.resourceUrl, header := hdr2, body := buf, rootCAs := rootCAs }
        (Except.ok (answerError (env.answers sent.length)), sent ++ [req])

/-- How the loop of `Write` ends: with a `return err` inside the loop (`err` is not nil
there), or by running through
all records, with the values of `err` and `batchByteArray` at that point. -/
inductive LoopExit where
  | returned (err : String)
  | finished (err : Option String) (batchByteArray : String)

/-- The loop of `Write` over the values of the records of the batch. -/
def writeLoop (env : Env) (h : HttpClientDestination) :
    List Value → Option String → String → List Request →
    Except String LoopExit × List Request
  | [], err, batchByteArray, sent => (Except.ok (LoopExit.finished err batchByteArray), sent)
  | value :: rest, err, batchByteArray, sent =>
    let conv : Except String (String × Option String) :=
      match value with
      | Value.str s => Except.ok (s, err)
      | v =>
        match env.jsonMarshal v with
        | Except.error e => Except.error e
        | Except.ok bs => Except.ok (bs, none)
    match conv with
    | Except.error e => (Except.ok (LoopExit.returned e), sent)
    | Except.ok (recordByteArray, err1) =>
      if h.singleRequestPerBatch then
        writeLoop env h rest err1 (batchByteArray ++ recordByteArray ++ "\n") sent
      else
        match sendToSDC env h sent recordByteArray with
        | (Except.error e, sent1) => (Except.error e, sent1)
        | (Except.ok (some e), sent1) => (Except.ok (LoopExit.returned e), sent1)
        | (Except.ok none, sent1) => writeLoop env h rest none batchByteArray sent1

/-- `func (h *HttpClientDestination) Write(batch api.Batch) error`, on the values
`record.GetValue()` of the records of the batch, in batch order. -/
def Write (env : Env) (h : HttpClientDestination) (sent : List Request) (batch : List Value) :
    Except String (Option String) × List Request :=
  match writeLoop env h batch none "" sent with
  | (Except.error e, sent1) => (Except.error e, sent1)
  | (Except.ok (LoopExit.returned err), sent1) => (Except.ok (some err), sent1)
  | (Except.ok (LoopExit.finished err batchByteArray), sent1) =>
    if h.singleRequestPerBatch ∧ batch.length > 0 then
      sendToSDC env h sent1 batchByteArray
    else (Except.ok err, sent1)

end http

namespace http

/-- Surroundings for the worked examples: `json.Marshal` fails on values of other Go types
(a channel, say) and encodes nil, booleans and numbers; every URL is accepted, no file can
be read, and the network answers request number 1 with status 500 and all others with 200. -/
def exampleEnv : Env :=
  { jsonMarshal := fun v =>
      match v with
      | Value.other t => Except.error ("json: unsupported type: " ++ t)
      | Value.null => Except.ok "null"
      | Value.bool true => Except.ok "true"
      | Value.bool false => Except.ok "false"
      | Value.num n => Except.ok (toString n)
      | Value.str s => Except.ok ("\"" ++ s ++ "\"")
      | Value.list _ => Except.ok "[]"
      | Value.map _ => Except.ok "\x7b\x7d"
    gzip := fun s => s
    validUrl := fun _ => true
    readFile := fun _ => Except.error "open: no such file or directory"
    answers := fun n =>
      if n = 1 then Answer.response 500 "500 Internal Server Error"
      else Answer.response 200 "200 OK" }

/-- A destination for the worked examples, one request per record. -/
def exampleStage : HttpClientDestination :=
  { HttpClientDestination.zero with resourceUrl := "http://localhost:18630/rest" }

/-- The request `exampleStage` issues for a body. -/
def exampleRequest (body : String) : Request :=
  { url := "http://localhost:18630/rest",
    header := [("Content-Type", "application/json;charset=UTF-8")],
    body := body, rootCAs := none }

end http

/-! ## stages/origins/dev_random/dev_random.go -/

namespace dev_random

/-- The part of `math/rand` the stage uses: the generator `rand.New(rand.NewSource(seed))`
and the method `Int63`, which yields a number and the next state of the generator. -/
structure Rand (G : Type) where
  NewSource : Int → G
  Int63 : G → Int × G

/-- The method `CreateRecord` of the stage context, which is not part of the sources: on a
state `σ` of the context it returns the Go pair (record, error) and the next state. -/
structure StageContext (σ R : Type) where
  CreateRecord : σ → String → List (String × Int) → (R × Option String) × σ

/-- The fields of the struct `DevRandom` that `Init` and `Produce` use for their result
(`Delay` only sets the length of the sleep at the start of `Produce`). -/
structure DevRandom where
  Fields : String
  fieldsList : List String

/-- `func (d *DevRandom) Init(stageContext api.StageContext) error`, with `baseInit` the
result of `d.BaseStage.Init(stageContext)`. -/
def Init (baseInit : Option String) (d : DevRandom) : Option String × DevRandom :=
  match baseInit with
  | some err => (some err, d)
  | none => (none, { d with fieldsList := d.Fields.splitOn "," })

/-- The inner loop of `Produce`: one `r.Int63()` per entry of the field list, assigned to
the map `recordValue` under the field name. -/
def fillRecord {G : Type} (rnd : Rand G) :
    List String → List (String × Int) → G → List (String × Int) × G
  | [], recordValue, g => (recordValue, g)
  | field :: rest, recordValue, g =>
    fillRecord rnd rest (GoMap.set recordValue field (rnd.Int63 g).1) (rnd.Int63 g).2

/-- One pass of the outer loop of `Produce`: the value built for the record, and the record
and error `CreateRecord` returned for it. With a nil error the record is added to the batch,
otherwise it goes to the error sink. -/
structure Created (R : Type) where
  value : List (String × Int)
  record : R
  err : Option String

/-- The outer loop of `Produce`, for the passes that remain. -/
def produceLoop {G σ R : Type} (d : DevRandom) (ctx : StageContext σ R) (rnd : Rand G) :
    Nat → G → σ → List (Created R)
  | 0, _, _ => []
  | k + 1, g, s =>
    let filled := fillRecord rnd d.fieldsList [] g
    let res := ctx.CreateRecord s "dev-random" filled.1
    { value := filled.1, record := res.1.1, err := res.1.2 } ::
      produceLoop d ctx rnd k filled.2 res.2

/-- `func (d *DevRandom) Produce(lastSourceOffset string, maxBatchSize int, batchMaker)
(string, error)`: the returned pair and the passes of the loop in order. The loop
`for i := 0; i < maxBatchSize; i++` makes `maxBatchSize` passes, none for a value below 1. -/
def Produce {G σ R : Type} (d : DevRandom) (ctx : StageContext σ R) (rnd : Rand G) (s : σ)
    (_lastSourceOffset : String) (maxBatchSize : Int) :
    (String × Option String) × List (Created R) :=
  (("random", none), produceLoop d ctx rnd maxBatchSize.toNat (rnd.NewSource 99) s)

/-- The records handed to `batchMaker.AddRecord`, in order. -/
def added {R : Type} (cs : List (Created R)) : List R :=
  (cs.filter (fun c => c.err.isNone)).map (fun c => c.record)

/-- The records handed to `ToError` with their errors, in order. -/
def toError {R : Type} (cs : List (Created R)) : List (Option String × R) :=
  (cs.filter (fun c => c.err.isSome)).map (fun c => (c.err, c.record))

/-- A generator for the worked examples (a linear congruential generator on 63 bits). -/
def exampleRand : Rand Int :=
  { NewSource := fun seed => seed
    Int63 := fun g => ((g * 25214903917 + 11) % 9223372036854775808,
      (g * 25214903917 + 11) % 9223372036854775808) }

/-- A stage context for the worked examples: records are numbered values, and the creation
of every third record fails. -/
def exampleContext : StageContext Nat (Nat × List (String × Int)) :=
  { CreateRecord := fun s _ v =>
      (((s, v), if s % 3 = 2 then some "cannot create record" else none), s + 1) }

/-- The stage of the worked examples. -/
def exampleStage : DevRandom := { Fields := "a,b", fieldsList := ["a", "b"] }

end dev_random

/-! ## stages/origins/spooler (the origin the tests of spooler_test.go run) -/

namespace spooler

/-- The two values of the read-order option (`LEXICOGRAPHICAL`, `LAST_MODIFIED`) that
`createStageContext` of the tests chooses between. -/
inductive ReadOrder where
  | LEXICOGRAPHICAL
  | LAST_MODIFIED
  deriving DecidableEq

/-- A regular file somewhere below the spool directory: the sub-directories that lead to it
(none for a file of the spool directory itself), its name, its modification time and its
content. A byte of a Go string is a character here. -/
structure DirFile where
  dir : List String
  name : String
  modTime : Int
  content : String

/-- The options of the stage the tests set, but for the initial file to process (left empty,
as in every test) and the polling timeout (a call that finds no file returns without
waiting). The glob pattern is given by the file names it matches. -/
structure SpoolDirConfig where
  spoolDirPath : String
  processSubDirectories : Bool
  filePattern : String → Bool
  readOrder : ReadOrder

/-- A file the origin may read, with its full path. -/
structure SpoolFile where
  path : String
  modTime : Int
  content : String
  deriving DecidableEq

/-- A record, with the three header attributes the tests check (`FILE`, `FILE_NAME`,
`OFFSET`). -/
structure Record where
  value : String
  file : String
  filename : String
  offset : String
  deriving DecidableEq

/-- Modelled from the spec: the file enumeration of the spooler origin, whose code is not
part of the sources. "List all files under the root (recursively if enabled) matching the
glob": the files of sub-directories count only with sub-directory processing enabled, and the
full path joins the spool directory, the sub-directories and the name with a slash, as
`filepath.Join` does in the tests. -/
def listFiles (cfg : SpoolDirConfig) (directory : List DirFile) : List SpoolFile :=
  (directory.filter
    (fun f => (cfg.processSubDirectories || f.dir.isEmpty) && cfg.filePattern f.name)).map
    (fun f =>
      { path := String.intercalate "/" (cfg.spoolDirPath :: f.dir ++ [f.name]),
        modTime := f.modTime, content := f.content })

/-- Modelled from the spec: the order of the files, of the spooler origin whose code is not
part of the sources. "Lexicographic compares full relative paths byte-wise; last-modified
compares modification timestamps ascending, with path as tie-break for equal timestamps." -/
def fileLE (order : ReadOrder) (a b : SpoolFile) : Prop :=
  match order with
  | ReadOrder.LEXICOGRAPHICAL => a.path.toList ≤ b.path.toList
  | ReadOrder.LAST_MODIFIED =>
    a.modTime < b.modTime ∨ (a.modTime = b.modTime ∧ a.path.toList ≤ b.path.toList)

instance fileLE_decidable (order : ReadOrder) : DecidableRel (fileLE order) := fun a b =>
  match order with
  | ReadOrder.LEXICOGRAPHICAL => inferInstanceAs (Decidable (a.path.toList ≤ b.path.toList))
  | ReadOrder.LAST_MODIFIED =>
    inferInstanceAs (Decidable
      (a.modTime < b.modTime ∨ (a.modTime = b.modTime ∧ a.path.toList ≤ b.path.toList)))

/-- Modelled from the spec: the directory scan of the spooler origin, whose code is not part
of the sources: the listed files in the total order of the configured policy. -/
def orderedFiles (cfg : SpoolDirConfig) (directory : List DirFile) : List SpoolFile :=
  (listFiles cfg directory).insertionSort (fileLE cfg.readOrder)

/-- Modelled from the spec: the "bare file name" attribute of the records of the spooler
origin, whose code is not part of the sources: what follows the last slash of the path (the
tests expect `filepath.Base` of the path). -/
def baseName (path : String) : String :=
  String.mk (path.toList.reverse.takeWhile (fun c => c != '/')).reverse

/-- Modelled from the spec: the line reader of the spooler origin, whose code is not part of
the sources. "Read the selected file line-by-line (newline-delimited) starting at the byte
position, emitting one Record per line ... Stop emitting once `maxBatchSize` records have
been produced or end-of-file is reached"; a final line without delimiter is a line, and no
line starts at the end of the file. The result is the lines read, each with the position at
which it begins, and the position after the last line read (one past its delimiter). -/
def readLines (content : List Char) : Nat → Nat → List (Nat × List Char) × Nat
  | 0, pos => ([], pos)
  | n + 1, pos =>
    if pos < content.length then
      let line := (content.drop pos).takeWhile (fun c => c != '\n')
      let r := readLines content n (pos + line.length + 1)
      ((pos, line) :: r.1, r.2)
    else ([], pos)

/-- Modelled from the spec: a record of the spooler origin, whose code is not part of the
sources: "one Record per line, each tagged with header attributes for the full file path,
the bare file name, and the byte offset at which that line began" (in decimal, as the tests
expect it). -/
def mkRecord (f : SpoolFile) (line : Nat × List Char) : Record :=
  { value := String.mk line.2, file := f.path, filename := baseName f.path,
    offset := toString line.1 }

/-- Modelled from the spec: the file selection of the spooler origin, whose code is not part
of the sources. Given the files from the current one on and the position in the current
file: "if the decoded file still has unread bytes, continue reading from the recorded byte
position; otherwise select the next file strictly after it in the current ordering"; an
empty file "is treated as immediately exhausted (selection advances to the next file)". -/
def selectFile : List SpoolFile → Nat → Option (SpoolFile × Nat)
  | [], _ => none
  | f :: rest, pos => if pos < f.content.toList.length then some (f, pos) else selectFile rest 0

/-- The offset of the origin. The opaque string of the spec is modelled by what it encodes,
"which file is currently open (by path), the byte offset within that file"; `none` is the
empty offset. -/
abbrev Offset := Option (String × Nat)

/-- Modelled from the spec: the files still to be read at an offset, of the spooler origin
whose code is not part of the sources: all files in order at the empty offset, else the
current file and the files after it ("re-deriving the ordering and skipping everything up to
and including the current file"), with the position in the first of them. -/
def pending (cfg : SpoolDirConfig) (directory : List DirFile) (lastSourceOffset : Offset) :
    List SpoolFile × Nat :=
  match lastSourceOffset with
  | none => (orderedFiles cfg directory, 0)
  | some (path, pos) =>
    ((orderedFiles cfg directory).dropWhile (fun f => f.path != path), pos)

/-- Modelled from the spec: `Produce(lastOffset, maxBatchSize)` of the spooler origin, whose
code is not part of the sources (section 4.2, steps 1 to 4 and 6). Without a file to read
the offset is returned unchanged with an empty batch. Step 5, as the spec words it (going on
with the next file in the same call while the batch has room), is not what the origin does:
the tests of spooler_test.go require a call to end where the file it reads ends (lines 197 to
201, 303 to 307 and 429 to 437: a batch of two records for `maxBatchSize` 3, of one record
for `maxBatchSize` 10), and the next call selects the next file. -/
def Produce (cfg : SpoolDirConfig) (directory : List DirFile) (lastSourceOffset : Offset)
    (maxBatchSize : Int) : Offset × List Record :=
  match selectFile (pending cfg directory lastSourceOffset).1
      (pending cfg directory lastSourceOffset).2 with
  | none => (lastSourceOffset, [])
  | some (f, pos) =>
    ((some (f.path, (readLines f.content.toList maxBatchSize.toNat pos).2)),
      (readLines f.content.toList maxBatchSize.toNat pos).1.map (mkRecord f))

/-- A run of `Produce` calls as `createSpoolerAndRun` of the tests makes them: every call
is on a new stage instance and gets the offset the previous call returned. The result is the
batch of every call and the offset after the last call. -/
def run (cfg : SpoolDirConfig) (directory : List DirFile) :
    Offset → List Int → List (List Record) × Offset
  | offset, [] => ([], offset)
  | offset, batchSize :: rest =>
    let r := Produce cfg directory offset batchSize
    let rs := run cfg directory r.1 rest
    (r.2 :: rs.1, rs.2)

/-- All records of a file, in order: its lines read from the start to the end. -/
def fileRecords (f : SpoolFile) : List Record :=
  (readLines f.content.toList f.content.toList.length 0).1.map (mkRecord f)

/-- The content of a file given by its lines: the lines joined by a newline, the last line
with a newline after it or without. -/
def joinLines : List (List Char) → Bool → List Char
  | [], _ => []
  | [l], trailing => l ++ (if trailing then ['\n'] else [])
  | l :: l2 :: ls, trailing => l ++ '\n' :: joinLines (l2 :: ls) trailing

/-- The records the spec promises for the lines of a file: record `i` has the line as value
and, as offset, the position at which the line begins, which is `start` for the first line
and moves on by the length of a line and one for its delimiter. -/
def lineRecords (path : String) : List (List Char) → Nat → List Record
  | [], _ => []
  | l :: ls, start =>
    { value := String.mk l, file := path, filename := baseName path,
      offset := toString start } :: lineRecords path ls (start + l.length + 1)

/-- The directory of `TestUseLastModified`: `a.txt`, `c.txt`, `b.txt`, modified in that
order. -/
def testDirLastModified : List DirFile :=
  [ { dir := [], name := "a.txt", modTime := -3, content := "123\n456" },
    { dir := [], name := "c.txt", modTime := -2,
      content := "111112113\n114115116\n117118119" },
    { dir := [], name := "b.txt", modTime := -1, content := "111213\n141516" } ]

/-- The directory of `TestLexicographical`: `a.txt`, `b.txt`, `c.txt`. -/
def testDirLexicographical : List DirFile :=
  [ { dir := [], name := "a.txt", modTime := -3, content := "123\n456" },
    { dir := [], name := "b.txt", modTime := -2, content := "111213\n141516" },
    { dir := [], name := "c.txt", modTime := -1,
      content := "111112113\n114115116\n117118119" } ]

/-- The stage context of the tests: `createStageContext(testDir, sub, "*", order, "", 1)`. -/
def testConfig (processSubDirectories : Bool) (readOrder : ReadOrder) : SpoolDirConfig :=
  { spoolDirPath := "/tmp/test", processSubDirectories := processSubDirectories,
    filePattern := fun _ => true, readOrder := readOrder }

end spooler

namespace spooler

/-- The records still to come from a list of files in order, the first of them read from
`pos` on and the others from their start. -/
def remainingFrom : List SpoolFile → Nat → List Record
  | [], _ => []
  | f :: rest, pos =>
    (readLines f.content.toList f.content.toList.length pos).1.map (mkRecord f)
      ++ remainingFrom rest 0

/-- The records still to come at an offset. -/
def remaining (cfg : SpoolDirConfig) (directory : List DirFile) (offset : Offset) :
    List Record :=
  remainingFrom (pending cfg directory offset).1 (pending cfg directory offset).2

end spooler

namespace spooler

/-- The directory of `TestSubDirectories`: one file in each of nine sub-directories of
different depth, modified one second after the other in the order of creation (the test
draws the one-letter names at random). -/
def testDirSubDirectories : List DirFile :=
  [ { dir := ["a", "b"], name := "Q", modTime := 0, content := "sample text" },
    { dir := ["b", "c", "d"], name := "D", modTime := 1, content := "sample text" },
    { dir := ["e", "f", "g", "h"], name := "X", modTime := 2, content := "sample text" },
    { dir := ["i", "j"], name := "A", modTime := 3, content := "sample text" },
    { dir := ["k", "l", "m", "n"], name := "M", modTime := 4, content := "sample text" },
    { dir := ["o", "p", "q", "r", "s"], name := "B", modTime := 5, content := "sample text" },
    { dir := ["u"], name := "T", modTime := 6, content := "sample text" },
    { dir := ["v", "w"], name := "K", modTime := 7, content := "sample text" },
    { dir := ["x", "y", "z"], name := "C", modTime := 8, content := "sample text" } ]

end spooler

namespace manager

/-- The delegation of the spec, "`getRunner(id)` followed by the corresponding Runner
operation": the runner operation `op` is applied to the runner `GetRunner` yields, its
result is returned, and the manager is the one `GetRunner` leaves. -/
def delegation {C I S P A E ρ β : Type} (R : RunnerPkg C I S P A E ρ)
    (p : PipelineManager C I S) (h : Heap ρ) (pipelineId : String) (op : ρ → ρ × β) :
    Except String (β × PipelineManager C I S × Heap ρ) :=
  (GetRunner R p h pipelineId).bind (fun g =>
    (callRunner g.2.2 g.1 op).bind (fun c => Except.ok (c.1, g.2.1, c.2)))

end manager

namespace manager

/-- Where a call of `GetRunner` stands: before the test of line 18, before the constructor
call of line 19 (the test found nil), before the store of line 23 (with the local variable
`pRunner`), before the `return` of line 25, or ended, by returning a pointer or by the panic
of line 21. -/
inductive Pc where
  | check
  | construct
  | store (pRunner : RunnerPtr)
  | ret
  | done (result : RunnerPtr)
  | panicked (err : String)
  deriving DecidableEq

/-- One step of a call of `GetRunner` on the shared manager and heap: the statement the call
stands before is executed as a whole. `PipelineManager` has no lock, so nothing keeps
another call from taking steps between two steps of this one. -/
def callStep {C I S P A E ρ : Type} (R : RunnerPkg C I S P A E ρ) (pipelineId : String)
    (s : PipelineManager C I S × Heap ρ) : Pc → (PipelineManager C I S × Heap ρ) × Pc
  | Pc.check => if lookup s.1 pipelineId = none then (s, Pc.construct) else (s, Pc.ret)
  | Pc.construct =>
    let res := R.NewStandaloneRunner pipelineId s.1.config s.1.runtimeInfo
      s.1.pipelineStoreTask
    let h1 : Heap ρ := { s.2 with constructed := s.2.constructed ++ [pipelineId] }
    match res.2 with
    | some err => ((s.1, h1), Pc.panicked err)
    | none => ((s.1, (alloc h1 res.1).2), Pc.store (alloc h1 res.1).1)
  | Pc.store pRunner =>
    (({ s.1 with runnerMap := GoMap.set s.1.runnerMap pipelineId pRunner }, s.2), Pc.ret)
  | Pc.ret => (s, Pc.done (lookup s.1 pipelineId))
  | Pc.done result => (s, Pc.done result)
  | Pc.panicked err => (s, Pc.panicked err)

/-- A call of `GetRunner` that takes `n` steps on its own. -/
def callSteps {C I S P A E ρ : Type} (R : RunnerPkg C I S P A E ρ) (pipelineId : String) :
    Nat → (PipelineManager C I S × Heap ρ) × Pc → (PipelineManager C I S × Heap ρ) × Pc
  | 0, c => c
  | n + 1, c => callSteps R pipelineId n (callStep R pipelineId c.1 c.2)

/-- Two calls of `GetRunner` for the same id at work on one manager: the shared manager and
heap, and where each of the two calls stands. -/
structure Racing (C I S ρ : Type) where
  shared : PipelineManager C I S × Heap ρ
  first : Pc
  second : Pc

/-- The next step of two racing calls, taken by the second call (`true`) or the first. -/
def raceStep {C I S P A E ρ : Type} (R : RunnerPkg C I S P A E ρ) (pipelineId : String)
    (c : Racing C I S ρ) (bySecond : Bool) : Racing C I S ρ :=
  if bySecond then
    { shared := (callStep R pipelineId c.shared c.second).1, first := c.first,
      second := (callStep R pipelineId c.shared c.second).2 }
  else
    { shared := (callStep R pipelineId c.shared c.first).1,
      first := (callStep R pipelineId c.shared c.first).2, second := c.second }

/-- An interleaving of two calls of `GetRunner` for one id that both start on manager `p` and
heap `h`: the schedule says which call takes each step. -/
def race {C I S P A E ρ : Type} (R : RunnerPkg C I S P A E ρ) (pipelineId : String)
    (p : PipelineManager C I S) (h : Heap ρ) (schedule : List Bool) : Racing C I S ρ :=
  schedule.foldl (raceStep R pipelineId)
    { shared := (p, h), first := Pc.check, second := Pc.check }

end manager

namespace http

/-- The bytes of a record in the reference definition of the request bodies: "the record's
value verbatim if it is a string and its JSON encoding otherwise". -/
def bytes (env : Env) : Value → Except String String
  | Value.str s => Except.ok s
  | v => env.jsonMarshal v

/-- The reference definition of the request bodies of a batch whose records have the bytes
`bs`, in batch order. In single-request-per-batch mode: one body, the concatenation of the
bytes of each record followed by a newline, for a batch that is not empty, and no body for
the empty batch. In the other mode: the bytes of each record, one body per record. -/
def referenceBodies (singleRequestPerBatch : Bool) (bs : List String) : List String :=
  if singleRequestPerBatch then
    (if bs = [] then [] else [String.join (bs.map (fun b => b ++ "\n"))])
  else bs

/-- Surroundings for the worked examples in which every request is answered with 200. -/
def exampleEnvOk : Env :=
  { exampleEnv with answers := fun _ => Answer.response 200 "200 OK" }

end http
/-! ## Properties of the Go map model -/

namespace GoMap

theorem find_set_self {α : Type} (m : List (String × α)) (k : String) (v : α) :
    find (set m k v) k = some v := by
  simp [find, set]

theorem find_filter_other {α : Type} (m : List (String × α)) (k j : String) (hne : j ≠ k) :
    (m.filter (fun e => e.1 != k)).find? (fun e => e.1 == j) = m.find? (fun e => e.1 == j) := by
  induction m with
  | nil => rfl
  | cons e m ih =>
    by_cases hej : e.1 = j
    · have hek : e.1 ≠ k := fun hh => hne (hej.symm.trans hh)
      have h1 : (e.1 != k) = true := by simpa using hek
      have h2 : (e.1 == j) = true := by simpa using hej
      simp only [List.filter_cons, h1, if_true, List.find?_cons, h2]
    · by_cases hek : e.1 = k
      · simp only [List.filter_cons, List.find?_cons, hek, bne_self_eq_false, Bool.false_eq_true,
          if_false]
        rw [ih]
        have : (k == j) = false := by simpa using fun hh : k = j => hne hh.symm
        simp [this]
      · have h1 : (e.1 != k) = true := by simpa using hek
        have h2 : (e.1 == j) = false := by simpa using hej
        simp only [List.filter_cons, h1, if_true, List.find?_cons, h2]
        exact ih

theorem find_set_other {α : Type} (m : List (String × α)) (k j : String) (v : α)
    (hne : j ≠ k) : find (set m k v) j = find m j := by
  have hkj : (k == j) = false := by
    simpa using fun hh : k = j => hne hh.symm
  simp only [find, set, List.find?_cons, hkj]
  rw [find_filter_other m k j hne]

end GoMap

/-! ## The runner registry -/

namespace manager

section registry

variable {C I S P A E ρ : Type}

theorem GetRunner_present (R : RunnerPkg C I S P A E ρ) (p : PipelineManager C I S)
    (h : Heap ρ) (pipelineId : String) (a : Nat) (hp : lookup p pipelineId = some a) :
    GetRunner R p h pipelineId = Except.ok (some a, p, h) := by
  simp [GetRunner, hp]

theorem lookup_set_self (p : PipelineManager C I S) (k : String) (v : RunnerPtr) :
    lookup { p with runnerMap := GoMap.set p.runnerMap k v } k = v := by
  simp [lookup, GoMap.find_set_self]

theorem lookup_set_other (p : PipelineManager C I S) (k j : String) (v : RunnerPtr)
    (hne : j ≠ k) :
    lookup { p with runnerMap := GoMap.set p.runnerMap k v } j = lookup p j := by
  simp [lookup, GoMap.find_set_other _ _ _ _ hne]

/-- What a returning `GetRunner` leaves in the registry: every binding to a runner is kept,
and the bindings of all other ids are untouched. -/
theorem GetRunner_registry (R : RunnerPkg C I S P A E ρ) (p p1 : PipelineManager C I S)
    (h h1 : Heap ρ) (pipelineId : String) (ptr : RunnerPtr)
    (hg : GetRunner R p h pipelineId = Except.ok (ptr, p1, h1)) :
    (∀ j a, lookup p j = some a → lookup p1 j = some a) ∧
    (∀ j, j ≠ pipelineId → lookup p1 j = lookup p j) := by
  unfold GetRunner at hg
  by_cases hn : lookup p pipelineId = none
  · rw [if_pos hn] at hg
    cases hr : (R.NewStandaloneRunner pipelineId p.config p.runtimeInfo p.pipelineStoreTask).2 with
    | some err => simp [hr] at hg
    | none =>
      simp only [hr, Except.ok.injEq, Prod.mk.injEq] at hg
      obtain ⟨-, hp1, -⟩ := hg
      subst hp1
      refine ⟨fun j a hj => ?_, fun j hj => lookup_set_other p pipelineId j _ hj⟩
      have hne : j ≠ pipelineId := by
        intro hh
        rw [hh, hn] at hj
        cases hj
      rw [lookup_set_other p pipelineId j _ hne]
      exact hj
  · rw [if_neg hn] at hg
    simp only [Except.ok.injEq, Prod.mk.injEq] at hg
    obtain ⟨-, hp1, -⟩ := hg
    subst hp1
    exact ⟨fun j a hj => hj, fun j _ => rfl⟩

theorem step_registry (R : RunnerPkg C I S P A E ρ) (s s1 : PipelineManager C I S × Heap ρ)
    (op : Op P) (hs : step R s op = Except.ok s1) :
    (∀ j a, lookup s.1 j = some a → lookup s1.1 j = some a) ∧
    (∀ j, j ≠ op.id → lookup s1.1 j = lookup s.1 j) := by
  cases op with
  | getRunner i =>
    simp only [step] at hs
    cases hg : GetRunner R s.1 s.2 i with
    | error e => simp [hg, Except.map] at hs
    | ok r =>
      obtain ⟨ptr, p1, h1⟩ := r
      simp only [hg, Except.map, Except.ok.injEq] at hs
      subst hs
      exact GetRunner_registry R s.1 p1 s.2 h1 i ptr hg
  | startPipeline i rp =>
    simp only [step, StartPipeline] at hs
    cases hg : GetRunner R s.1 s.2 i with
    | error e => simp [hg, Except.map] at hs
    | ok r =>
      obtain ⟨ptr, p1, h1⟩ := r
      simp only [hg] at hs
      cases hc : callRunner h1 ptr (fun o => R.StartPipeline o rp) with
      | error e => simp [hc, Except.map] at hs
      | ok r2 =>
        simp only [hc, Except.map, Except.ok.injEq] at hs
        subst hs
        exact GetRunner_registry R s.1 p1 s.2 h1 i ptr hg
  | stopPipeline i =>
    simp only [step, StopPipeline] at hs
    cases hg : GetRunner R s.1 s.2 i with
    | error e => simp [hg, Except.map] at hs
    | ok r =>
      obtain ⟨ptr, p1, h1⟩ := r
      simp only [hg] at hs
      cases hc : callRunner h1 ptr R.StopPipeline with
      | error e => simp [hc, Except.map] at hs
      | ok r2 =>
        simp only [hc, Except.map, Except.ok.injEq] at hs
        subst hs
        exact GetRunner_registry R s.1 p1 s.2 h1 i ptr hg
  | resetOffset i =>
    simp only [step, ResetOffset] at hs
    cases hg : GetRunner R s.1 s.2 i with
    | error e => simp [hg, Except.map] at hs
    | ok r =>
      obtain ⟨ptr, p1, h1⟩ := r
      simp only [hg] at hs
      cases hc : callRunner h1 ptr R.ResetOffset with
      | error e => simp [hc, Except.map] at hs
      | ok r2 =>
        simp only [hc, Except.map, Except.ok.injEq] at hs
        subst hs
        exact GetRunner_registry R s.1 p1 s.2 h1 i ptr hg

theorem run_registry (R : RunnerPkg C I S P A E ρ) (ops : List (Op P)) :
    ∀ (s s1 : PipelineManager C I S × Heap ρ), run R s ops = Except.ok s1 →
      ∀ j a, lookup s.1 j = some a → lookup s1.1 j = some a := by
  induction ops with
  | nil =>
    intro s s1 hr j a hj
    simp only [run, Except.ok.injEq] at hr
    subst hr
    exact hj
  | cons op ops ih =>
    intro s s1 hr j a hj
    simp only [run] at hr
    cases hs : step R s op with
    | error e => simp [hs] at hr
    | ok s2 =>
      simp only [hs] at hr
      exact ih s2 s1 hr j a ((step_registry R s s2 op hs).1 j a hj)

theorem run_append (R : RunnerPkg C I S P A E ρ) (ops1 ops2 : List (Op P)) :
    ∀ s : PipelineManager C I S × Heap ρ,
      run R s (ops1 ++ ops2) =
        match run R s ops1 with
        | Except.error e => Except.error e
        | Except.ok s1 => run R s1 ops2 := by
  induction ops1 with
  | nil => intro s; rfl
  | cons op ops ih =>
    intro s
    simp only [List.cons_append, run]
    cases hs : step R s op with
    | error e => rfl
    | ok s1 => exact ih s1

end registry

end manager

namespace manager

/-- C1: `GetRunner` returns the cached runner and constructs nothing when the registry holds a
runner for the id (manager and heap, with its record of constructor calls, are unchanged);
otherwise, when `NewStandaloneRunner` succeeds with a runner object, exactly one constructor
call is made, for that id, the one new object is put on the heap, its address is stored
under the id and returned, and every later `GetRunner` call with the same id, directly or
after any further manager operations, returns that same address without constructing
anything. -/
theorem GetRunner_cached_or_constructed_once {C I S P A E ρ : Type}
    (R : RunnerPkg C I S P A E ρ) (p : PipelineManager C I S) (h : Heap ρ)
    (pipelineId : String) :
    (∀ a, lookup p pipelineId = some a →
      GetRunner R p h pipelineId = Except.ok (some a, p, h)) ∧
    (∀ o, lookup p pipelineId = none →
      R.NewStandaloneRunner pipelineId p.config p.runtimeInfo p.pipelineStoreTask
        = (some o, none) →
      GetRunner R p h pipelineId = Except.ok (some h.runners.length,
        { p with runnerMap := GoMap.set p.runnerMap pipelineId (some h.runners.length) },
        { runners := h.runners ++ [o], constructed := h.constructed ++ [pipelineId] }) ∧
      ∀ (ops : List (Op P)) (s : PipelineManager C I S × Heap ρ),
        run R ({ p with runnerMap := GoMap.set p.runnerMap pipelineId (some h.runners.length) },
          { runners := h.runners ++ [o], constructed := h.constructed ++ [pipelineId] }) ops
          = Except.ok s →
        GetRunner R s.1 s.2 pipelineId = Except.ok (some h.runners.length, s.1, s.2)) := by
  refine ⟨fun a ha => GetRunner_present R p h pipelineId a ha,
    fun o hn hc => ⟨?_, fun ops s hr => ?_⟩⟩
  · simp [GetRunner, hn, hc, alloc, lookup_set_self]
  · exact GetRunner_present R s.1 s.2 pipelineId _
      (run_registry R ops _ s hr pipelineId _ (lookup_set_self p pipelineId _))

theorem GetRunner_cached_or_constructed_once_witness :
    GetRunner exampleRunners exampleStart.1 exampleStart.2 "a"
      = Except.ok (some 0,
          { exampleStart.1 with runnerMap := [("a", some 0)] },
          { runners := [("a", 0)], constructed := ["a"] }) ∧
    GetRunner exampleRunners
        { exampleStart.1 with runnerMap := [("b", some 1), ("a", some 0)] }
        { runners := [("a", 1), ("b", 0)], constructed := ["a", "b"] } "a"
      = Except.ok (some 0, { exampleStart.1 with runnerMap := [("b", some 1), ("a", some 0)] },
          { runners := [("a", 1), ("b", 0)], constructed := ["a", "b"] }) :=
  ⟨((GetRunner_cached_or_constructed_once exampleRunners exampleStart.1 exampleStart.2 "a").2
      ("a", 0) (by decide) (by decide)).1,
   ((GetRunner_cached_or_constructed_once exampleRunners exampleStart.1 exampleStart.2 "a").2
      ("a", 0) (by decide) (by decide)).2
      [Op.startPipeline "a" (), Op.getRunner "b"]
      ({ exampleStart.1 with runnerMap := [("b", some 1), ("a", some 0)] },
        { runners := [("a", 1), ("b", 0)], constructed := ["a", "b"] }) (by rfl)⟩

/-- C2: registry entries are never removed or replaced. Along every sequence of manager
operations that starts from the empty registry of `NewManager`, an id that is mapped to a
runner after some operation is mapped to the same runner after every later operation, and a
single operation on one id leaves the entry of every other id as it was. -/
theorem registry_entries_never_removed {C I S P A E ρ : Type}
    (R : RunnerPkg C I S P A E ρ) (config : C) (runtimeInfo : I) (pipelineStoreTask : S)
    (h0 : Heap ρ) (ops1 ops2 : List (Op P)) (s2 : PipelineManager C I S × Heap ρ)
    (hr : run R (NewManager config runtimeInfo pipelineStoreTask, h0) (ops1 ++ ops2)
      = Except.ok s2) :
    ∃ s1, run R (NewManager config runtimeInfo pipelineStoreTask, h0) ops1 = Except.ok s1 ∧
      (∀ j a, lookup s1.1 j = some a → lookup s2.1 j = some a) ∧
      (∀ (op : Op P) (s3 : PipelineManager C I S × Heap ρ), step R s2 op = Except.ok s3 →
        ∀ j, j ≠ op.id → lookup s3.1 j = lookup s2.1 j) := by
  rw [run_append] at hr
  cases h1 : run R (NewManager config runtimeInfo pipelineStoreTask, h0) ops1 with
  | error e => simp [h1] at hr
  | ok s1 =>
    simp only [h1] at hr
    exact ⟨s1, rfl, run_registry R ops2 s1 s2 hr, fun op s3 hs => (step_registry R s2 s3 op hs).2⟩

theorem registry_entries_never_removed_witness :
    ∃ s1, run exampleRunners (NewManager () () (), exampleStart.2)
        [Op.getRunner "a", Op.startPipeline "b" ()] = Except.ok s1 ∧
      (∀ j a, lookup s1.1 j = some a →
        lookup (({ exampleStart.1 with
            runnerMap := [("c", some 2), ("b", some 1), ("a", some 0)] },
          { runners := [("a", 0), ("b", 0), ("c", 0)], constructed := ["a", "b", "c"] }) :
            PipelineManager Unit Unit Unit × Heap (String × Nat)).1 j = some a) ∧
      (∀ (op : Op Unit) (s3 : PipelineManager Unit Unit Unit × Heap (String × Nat)),
        step exampleRunners
          ({ exampleStart.1 with runnerMap := [("c", some 2), ("b", some 1), ("a", some 0)] },
           { runners := [("a", 0), ("b", 0), ("c", 0)], constructed := ["a", "b", "c"] }) op
          = Except.ok s3 →
        ∀ j, j ≠ op.id → lookup s3.1 j = lookup
          (({ exampleStart.1 with
              runnerMap := [("c", some 2), ("b", some 1), ("a", some 0)] },
            { runners := [("a", 0), ("b", 0), ("c", 0)], constructed := ["a", "b", "c"] }) :
              PipelineManager Unit Unit Unit × Heap (String × Nat)).1 j) :=
  registry_entries_never_removed exampleRunners () () () exampleStart.2
    [Op.getRunner "a", Op.startPipeline "b" ()]
    [Op.resetOffset "b", Op.stopPipeline "c", Op.getRunner "a"] _ (by rfl)

end manager

/-! ## The HTTP destination -/

namespace http

theorem initEntry_wellTyped (ctx : StageContext) (h : HttpClientDestination) (c : Config)
    (hw : wellTyped ctx c) : ∃ h1, initEntry ctx h c = Except.ok h1 := by
  unfold wellTyped expectedType at hw
  unfold initEntry
  cases hv : ctx.GetResolvedValue c.Value <;>
    simp only [hv, Value.typeName] at hw <;>
    split_ifs at hw with h1 h2 h3 h4 h5 h6 <;>
    simp_all [assertString, assertBool, assertList, Except.map, bind, Except.bind, pure,
      Except.pure]

theorem initEntry_illTyped (ctx : StageContext) (h : HttpClientDestination) (c : Config)
    (hw : ¬ wellTyped ctx c) : ∃ msg, initEntry ctx h c = Except.error msg := by
  unfold wellTyped expectedType at hw
  unfold initEntry
  cases hv : ctx.GetResolvedValue c.Value <;>
    simp only [hv, Value.typeName] at hw <;>
    split_ifs at hw with h1 h2 h3 h4 h5 h6 <;>
    simp_all [assertString, assertBool, assertList, Except.map, bind, Except.bind, pure,
      Except.pure]

theorem initLoop_wellTyped (ctx : StageContext) (cs : List Config) :
    ∀ h : HttpClientDestination, (∀ c ∈ cs, wellTyped ctx c) →
      ∃ h1, initLoop ctx cs h = Except.ok h1 := by
  induction cs with
  | nil => exact fun h _ => ⟨h, rfl⟩
  | cons c cs ih =>
    intro h hall
    obtain ⟨h1, he⟩ := initEntry_wellTyped ctx h c (hall c (List.mem_cons_self c cs))
    obtain ⟨h2, hl⟩ := ih h1 (fun d hd => hall d (List.mem_cons_of_mem c hd))
    exact ⟨h2, by simp only [initLoop, he, hl]⟩

theorem initLoop_illTyped (ctx : StageContext) (cs : List Config) :
    ∀ h : HttpClientDestination, (∃ c ∈ cs, ¬ wellTyped ctx c) →
      ∃ msg, initLoop ctx cs h = Except.error msg := by
  induction cs with
  | nil =>
    intro h hex
    obtain ⟨c, hc, -⟩ := hex
    cases hc
  | cons c cs ih =>
    intro h hex
    by_cases hw : wellTyped ctx c
    · obtain ⟨h1, he⟩ := initEntry_wellTyped ctx h c hw
      have hex2 : ∃ d ∈ cs, ¬ wellTyped ctx d := by
        obtain ⟨d, hd, hdw⟩ := hex
        rcases List.mem_cons.mp hd with hdc | hdc
        · exact absurd (hdc ▸ hw) hdw
        · exact ⟨d, hdc, hdw⟩
      obtain ⟨msg, hl⟩ := ih h1 hex2
      exact ⟨msg, by simp only [initLoop, he, hl]⟩
    · obtain ⟨msg, he⟩ := initEntry_illTyped ctx h c hw
      exact ⟨msg, by simp only [initLoop, he]⟩

/-- C4 (amended): `Init` does not validate its options. It returns an error exactly when
`BaseStage.Init` does (that error, the stage untouched). Otherwise it returns nil whenever the
resolved value of every recognised option that is present has the asserted type, whether or
not an entry named `conf.resourceUrl` is present; and when some recognised option has a
resolved value of another type, the unchecked type assertion panics, so that `Init` returns
nothing at all. -/
theorem Init_returns_nil_or_panics (baseInit : StageContext → Option String)
    (h : HttpClientDestination) (stageContext : StageContext) :
    (∀ err, baseInit stageContext = some err →
      Init baseInit h stageContext = Except.ok (some err, h)) ∧
    (baseInit stageContext = none →
      ((∀ c ∈ stageContext.Configuration, wellTyped stageContext c) →
        ∃ h1, Init baseInit h stageContext = Except.ok (none, h1)) ∧
      ((∃ c ∈ stageContext.Configuration, ¬ wellTyped stageContext c) →
        ∃ msg, Init baseInit h stageContext = Except.error msg)) := by
  refine ⟨fun err hb => by simp only [Init, hb], fun hb => ⟨fun hall => ?_, fun hex => ?_⟩⟩
  · obtain ⟨h1, hl⟩ := initLoop_wellTyped stageContext stageContext.Configuration h hall
    exact ⟨h1, by simp only [Init, hb, hl]⟩
  · obtain ⟨msg, hl⟩ := initLoop_illTyped stageContext stageContext.Configuration h hex
    exact ⟨msg, by simp only [Init, hb, hl]⟩

theorem Init_returns_nil_or_panics_witness :
    (∃ h1, Init (fun _ => none) HttpClientDestination.zero
      { Configuration := [{ Name := "conf.singleRequestPerBatch", Value := Value.bool true }],
        GetResolvedValue := id } = Except.ok (none, h1)) ∧
    (∃ msg, Init (fun _ => none) HttpClientDestination.zero
      { Configuration := [{ Name := "conf.resourceUrl", Value := Value.num 8080 }],
        GetResolvedValue := id } = Except.error msg) :=
  ⟨((Init_returns_nil_or_panics (fun _ => none) HttpClientDestination.zero
      { Configuration := [{ Name := "conf.singleRequestPerBatch", Value := Value.bool true }],
        GetResolvedValue := id }).2 rfl).1
      (by
        intro c hc t ht
        simp only [List.mem_singleton] at hc
        subst hc
        have hb : expectedType "conf.singleRequestPerBatch" = some "bool" := by decide
        rw [hb] at ht
        cases ht
        rfl),
   ((Init_returns_nil_or_panics (fun _ => none) HttpClientDestination.zero
      { Configuration := [{ Name := "conf.resourceUrl", Value := Value.num 8080 }],
        GetResolvedValue := id }).2 rfl).2
      ⟨{ Name := "conf.resourceUrl", Value := Value.num 8080 }, List.mem_singleton.mpr rfl,
        fun hw => absurd (hw "string" (by decide)) (by decide)⟩⟩

/-- C4 (counterexample): with an empty configuration list, so without any entry named
`conf.resourceUrl`, `Init` returns nil and leaves the resource URL empty; and an entry
`conf.resourceUrl` whose value is a number makes `Init` panic instead of returning an
error. -/
theorem Init_accepts_missing_resourceUrl :
    Init (fun _ => none) HttpClientDestination.zero { Configuration := [], GetResolvedValue := id }
      = Except.ok (none, HttpClientDestination.zero) ∧
    HttpClientDestination.zero.resourceUrl = "" ∧
    Init (fun _ => none) HttpClientDestination.zero
      { Configuration := [{ Name := "conf.resourceUrl", Value := Value.num 8080 }],
        GetResolvedValue := id }
      = Except.error "interface conversion: interface {} is not string" :=
  ⟨rfl, rfl, rfl⟩

end http

namespace http

/-- The loop of `Write` over a batch split in two: the second part is run from where the
first part ends, unless the first part ends the call. -/
theorem writeLoop_append (env : Env) (h : HttpClientDestination) (pre rest : List Value) :
    ∀ (err : Option String) (b : String) (sent : List Request),
      writeLoop env h (pre ++ rest) err b sent =
        match writeLoop env h pre err b sent with
        | (Except.ok (LoopExit.finished err1 b1), s1) => writeLoop env h rest err1 b1 s1
        | r => r := by
  induction pre with
  | nil => intro err b sent; simp [writeLoop]
  | cons v pre ih =>
    intro err b sent
    simp only [List.cons_append, writeLoop]
    split
    · rfl
    · split
      · exact ih _ _ _
      · split
        · rfl
        · rfl
        · exact ih _ _ _

/-- A value that is no string and that `json.Marshal` rejects ends the loop at once. -/
theorem writeLoop_marshal_error (env : Env) (h : HttpClientDestination) (v : Value)
    (post : List Value) (e : String) (hv : ∀ s, v ≠ Value.str s)
    (he : env.jsonMarshal v = Except.error e) (err : Option String) (b : String)
    (sent : List Request) :
    writeLoop env h (v :: post) err b sent = (Except.ok (LoopExit.returned e), sent) := by
  cases v with
  | str s => exact absurd rfl (hv s)
  | _ => simp only [writeLoop, he]

/-- The variable `err` is nil when the loop runs to its end, if it was nil at the start. -/
theorem writeLoop_finished_err (env : Env) (h : HttpClientDestination) (vs : List Value) :
    ∀ (b : String) (sent : List Request) (err1 : Option String) (b1 : String)
      (s1 : List Request),
      writeLoop env h vs none b sent = (Except.ok (LoopExit.finished err1 b1), s1) →
      err1 = none := by
  induction vs with
  | nil =>
    intro b sent err1 b1 s1 hl
    simp only [writeLoop, Prod.mk.injEq, Except.ok.injEq, LoopExit.finished.injEq] at hl
    exact hl.1.1.symm
  | cons v vs ih =>
    intro b sent err1 b1 s1 hl
    simp only [writeLoop] at hl
    split at hl
    · simp at hl
    · rename_i bs e1 hc
      have he1 : e1 = none := by
        cases v <;> simp only at hc <;>
          first
          | (simp only [Except.ok.injEq, Prod.mk.injEq] at hc; exact hc.2.symm)
          | (split at hc <;> simp only [Except.ok.injEq, Prod.mk.injEq, reduceCtorEq] at hc
             exact hc.2.symm)
      subst he1
      split at hl
      · exact ih _ _ _ _ _ hl
      · split at hl
        · simp at hl
        · simp at hl
        · exact ih _ _ _ _ _ hl

/-- In single-request mode the loop issues no request and does not panic. -/
theorem writeLoop_single (env : Env) (h : HttpClientDestination)
    (hs : h.singleRequestPerBatch = true) (vs : List Value) :
    ∀ (err : Option String) (b : String) (sent : List Request),
      ∃ x, writeLoop env h vs err b sent = (Except.ok x, sent) := by
  induction vs with
  | nil => intro err b sent; exact ⟨_, rfl⟩
  | cons v vs ih =>
    intro err b sent
    simp only [writeLoop, hs, if_true]
    split
    · exact ⟨_, rfl⟩
    · exact ih _ _ _

/-- In single-request mode the loop runs to its end over values that all serialize. -/
theorem writeLoop_single_finished (env : Env) (h : HttpClientDestination)
    (hs : h.singleRequestPerBatch = true) (vs : List Value)
    (hall : ∀ u ∈ vs, (∃ s, u = Value.str s) ∨ ∃ bs, env.jsonMarshal u = Except.ok bs) :
    ∀ (err : Option String) (b : String) (sent : List Request),
      ∃ err1 b1, writeLoop env h vs err b sent
        = (Except.ok (LoopExit.finished err1 b1), sent) := by
  induction vs with
  | nil => intro err b sent; exact ⟨_, _, rfl⟩
  | cons v vs ih =>
    intro err b sent
    have ih2 := ih (fun u hu => hall u (List.mem_cons_of_mem v hu))
    rcases hall v (List.mem_cons_self v vs) with ⟨s, hv⟩ | ⟨bs, hv⟩
    · subst hv
      simp only [writeLoop, hs, if_true]
      exact ih2 _ _ _
    · cases v with
      | str s =>
        simp only [writeLoop, hs, if_true]
        exact ih2 _ _ _
      | _ =>
        simp only [writeLoop, hs, if_true, hv]
        exact ih2 _ _ _

/-- C3 (amended): a value that is no string and that `json.Marshal` rejects ends `Write` at
once with that error as the result of `Write`; no record after it is serialized or sent. In
one-request-per-record mode the records before it have been sent already (the call behaves
as on the records before it and, where that returns nil, returns the encoding error with the
same requests issued); in single-request mode no request is issued at all. -/
theorem Write_stops_at_unserializable_record (env : Env) (h : HttpClientDestination)
    (sent : List Request) (pre : List Value) (v : Value) (post : List Value) (e : String)
    (hv : ∀ s, v ≠ Value.str s) (he : env.jsonMarshal v = Except.error e) :
    (h.singleRequestPerBatch = false →
      Write env h sent (pre ++ v :: post) =
        match Write env h sent pre with
        | (Except.ok none, s1) => (Except.ok (some e), s1)
        | r => r) ∧
    (h.singleRequestPerBatch = true →
      ∃ e1, Write env h sent (pre ++ v :: post) = (Except.ok (some e1), sent) ∧
        ((∀ u ∈ pre, (∃ s, u = Value.str s) ∨ ∃ bs, env.jsonMarshal u = Except.ok bs) →
          e1 = e)) := by
  constructor
  · intro hs
    unfold Write
    rw [writeLoop_append]
    rcases hl : writeLoop env h pre none "" sent with ⟨r, s1⟩
    cases r with
    | error p => simp only []
    | ok x =>
      cases x with
      | returned e1 => simp only []
      | finished err1 b1 =>
        have hn := writeLoop_finished_err env h pre "" sent err1 b1 s1 hl
        subst hn
        simp only [writeLoop_marshal_error env h v post e hv he, hs, Bool.false_eq_true,
          false_and, if_false]
  · intro hs
    unfold Write
    rw [writeLoop_append]
    obtain ⟨x, hl⟩ := writeLoop_single env h hs pre none "" sent
    cases x with
    | returned e1 =>
      refine ⟨e1, by simp only [hl], fun hall => ?_⟩
      obtain ⟨err1, b1, hf⟩ := writeLoop_single_finished env h hs pre hall none "" sent
      rw [hl] at hf
      simp at hf
    | finished err1 b1 =>
      exact ⟨e, by simp only [hl, writeLoop_marshal_error env h v post e hv he], fun _ => rfl⟩

theorem Write_stops_at_unserializable_record_witness :
    Write exampleEnv exampleStage []
        ([Value.str "a"] ++ Value.other "chan int" :: [Value.str "b"])
      = (Except.ok (some "json: unsupported type: chan int"), [exampleRequest "a"]) :=
  (Write_stops_at_unserializable_record exampleEnv exampleStage [] [Value.str "a"]
    (Value.other "chan int") [Value.str "b"] "json: unsupported type: chan int"
    (fun s hh => by cases hh) rfl).1 rfl

/-- C3 (counterexample): in a batch of three records whose second value cannot be encoded,
`Write` sends the first record only and returns the encoding error; in single-request mode
it sends nothing. The third record, which would serialize, is never sent. -/
theorem Write_aborts_batch_on_unserializable_record :
    exampleEnv.jsonMarshal (Value.other "chan int")
      = Except.error "json: unsupported type: chan int" ∧
    Write exampleEnv exampleStage []
        [Value.str "a", Value.other "chan int", Value.str "b"]
      = (Except.ok (some "json: unsupported type: chan int"), [exampleRequest "a"]) ∧
    Write exampleEnv { exampleStage with singleRequestPerBatch := true } []
        [Value.str "a", Value.other "chan int", Value.str "b"]
      = (Except.ok (some "json: unsupported type: chan int"), []) :=
  ⟨rfl, rfl, rfl⟩

end http

namespace http

/-- A call of `sendToSDC` either issues no request and does not return nil, or issues
exactly one request and returns the error derived from the answer to it. -/
theorem sendToSDC_cases (env : Env) (h : HttpClientDestination) (sent : List Request)
    (body : String) :
    ((sendToSDC env h sent body).2 = sent ∧ (sendToSDC env h sent body).1 ≠ Except.ok none) ∨
    (∃ req, (sendToSDC env h sent body).2 = sent ++ [req] ∧
      (sendToSDC env h sent body).1 = Except.ok (answerError (env.answers sent.length))) := by
  unfold sendToSDC
  simp only
  split
  · left; exact ⟨rfl, by simp⟩
  · split
    · left; exact ⟨rfl, by simp⟩
    · split
      · left; exact ⟨rfl, by simp⟩
      · right; exact ⟨_, rfl, rfl⟩

/-- The requests the loop of `Write` issues: the list of requests grows at its end, and a
request whose answer is a failure is the last one, the loop returning its error. -/
theorem writeLoop_requests (env : Env) (h : HttpClientDestination) (vs : List Value) :
    ∀ (err : Option String) (b : String) (sent : List Request),
      (∃ new, (writeLoop env h vs err b sent).2 = sent ++ new) ∧
      ∀ i, sent.length ≤ i → i < (writeLoop env h vs err b sent).2.length →
        ∀ e, answerError (env.answers i) = some e →
          (writeLoop env h vs err b sent).1 = Except.ok (LoopExit.returned e) ∧
          i + 1 = (writeLoop env h vs err b sent).2.length := by
  induction vs with
  | nil =>
    intro err b sent
    refine ⟨⟨[], by simp [writeLoop]⟩, fun i h1 h2 => ?_⟩
    simp only [writeLoop] at h2
    omega
  | cons v vs ih =>
    intro err b sent
    simp only [writeLoop]
    split
    · refine ⟨⟨[], by simp⟩, fun i h1 h2 => ?_⟩
      simp only at h2
      omega
    · split
      · exact ih _ _ _
      · rename_i bs e1 hc hsingle
        rcases sendToSDC_cases env h sent bs with ⟨hs2, hs1⟩ | ⟨req, hs2, hs1⟩
        · split
          · rename_i p sent1 hsend
            have : sent1 = sent := by rw [← hs2, hsend]
            subst this
            refine ⟨⟨[], by simp⟩, fun i h1 h2 => ?_⟩
            simp only at h2
            omega
          · rename_i e2 sent1 hsend
            have : sent1 = sent := by rw [← hs2, hsend]
            subst this
            refine ⟨⟨[], by simp⟩, fun i h1 h2 => ?_⟩
            simp only at h2
            omega
          · rename_i sent1 hsend
            rw [hsend] at hs1
            exact absurd rfl hs1
        · split
          · rename_i p sent1 hsend
            rw [hsend] at hs1
            simp at hs1
          · rename_i e2 sent1 hsend
            rw [hsend] at hs1 hs2
            simp only at hs1 hs2
            subst hs2
            refine ⟨⟨[req], rfl⟩, fun i h1 h2 e he => ?_⟩
            simp only [List.length_append, List.length_singleton] at h2 ⊢
            have hi : i = sent.length := by omega
            subst hi
            simp only [Except.ok.injEq] at hs1
            rw [← hs1] at he
            simp only [Option.some.injEq] at he
            subst he
            exact ⟨rfl, rfl⟩
          · rename_i sent1 hsend
            rw [hsend] at hs1 hs2
            simp only at hs1 hs2
            subst hs2
            obtain ⟨⟨new, hnew⟩, hih⟩ := ih none b (sent ++ [req])
            refine ⟨⟨req :: new, by rw [hnew]; simp⟩, fun i h1 h2 e he => ?_⟩
            by_cases hi : i = sent.length
            · subst hi
              simp only [Except.ok.injEq] at hs1
              rw [← hs1] at he
              cases he
            · exact hih i (by simp only [List.length_append, List.length_singleton]; omega)
                h2 e he

/-- The requests a call of `Write` issues, as `writeLoop_requests` for the whole call. -/
theorem Write_requests (env : Env) (h : HttpClientDestination) (sent : List Request)
    (batch : List Value) :
    (∃ new, (Write env h sent batch).2 = sent ++ new) ∧
    ∀ i, sent.length ≤ i → i < (Write env h sent batch).2.length →
      ∀ e, answerError (env.answers i) = some e →
        (Write env h sent batch).1 = Except.ok (some e) ∧
        i + 1 = (Write env h sent batch).2.length := by
  obtain ⟨⟨new, hnew⟩, hloop⟩ := writeLoop_requests env h batch none "" sent
  unfold Write
  rcases hl : writeLoop env h batch none "" sent with ⟨r, s1⟩
  rw [hl] at hnew hloop
  simp only at hnew hloop
  cases r with
  | error p =>
    refine ⟨⟨new, hnew⟩, fun i h1 h2 e he => ?_⟩
    have := (hloop i h1 h2 e he).1
    simp at this
  | ok x =>
    cases x with
    | returned e1 =>
      refine ⟨⟨new, hnew⟩, fun i h1 h2 e he => ?_⟩
      obtain ⟨hr, hlen⟩ := hloop i h1 h2 e he
      simp only [Except.ok.injEq, LoopExit.returned.injEq] at hr
      subst hr
      exact ⟨rfl, hlen⟩
    | finished err1 b1 =>
      have hnone : ∀ i, sent.length ≤ i → i < s1.length →
          ∀ e, answerError (env.answers i) = some e → False := by
        intro i h1 h2 e he
        have := (hloop i h1 h2 e he).1
        simp at this
      simp only
      split
      · rcases sendToSDC_cases env h s1 b1 with ⟨hs2, -⟩ | ⟨req, hs2, hs1⟩
        · rw [hs2]
          exact ⟨⟨new, hnew⟩, fun i h1 h2 e he => (hnone i h1 h2 e he).elim⟩
        · rw [hs2, hs1]
          refine ⟨⟨new ++ [req], by rw [hnew]; simp⟩, fun i h1 h2 e he => ?_⟩
          simp only [List.length_append, List.length_singleton] at h2 ⊢
          by_cases hi : i = s1.length
          · subst hi
            rw [he]
            exact ⟨rfl, rfl⟩
          · exact (hnone i h1 (by omega) e he).elim
      · exact ⟨⟨new, hnew⟩, fun i h1 h2 e he => (hnone i h1 h2 e he).elim⟩

/-- C5: a request issued by `Write` that fails at transport level or is answered with a
status code other than 200 makes `Write` return a non-nil error (the transport error, or the
status text of the response) and is the last request of the call, so that no later record is
sent; and `Write` returns nil only if every request it issued was answered with status 200.
The requests of the call are those it appends to the list of issued requests. -/
theorem Write_error_on_failed_request (env : Env) (h : HttpClientDestination)
    (sent : List Request) (batch : List Value) :
    (∃ new, (Write env h sent batch).2 = sent ++ new) ∧
    (∀ i, sent.length ≤ i → i < (Write env h sent batch).2.length →
      (∀ err, env.answers i = Answer.transportError err →
        (Write env h sent batch).1 = Except.ok (some err) ∧
        i + 1 = (Write env h sent batch).2.length) ∧
      (∀ code status, env.answers i = Answer.response code status → code ≠ 200 →
        (Write env h sent batch).1 = Except.ok (some status) ∧
        i + 1 = (Write env h sent batch).2.length)) ∧
    ((Write env h sent batch).1 = Except.ok none →
      ∀ i, sent.length ≤ i → i < (Write env h sent batch).2.length →
        ∃ status, env.answers i = Answer.response 200 status) := by
  obtain ⟨hnew, hreq⟩ := Write_requests env h sent batch
  refine ⟨hnew, fun i h1 h2 => ⟨fun err ha => ?_, fun code status ha hc => ?_⟩,
    fun hnil i h1 h2 => ?_⟩
  · exact hreq i h1 h2 err (by rw [ha]; rfl)
  · exact hreq i h1 h2 status (by rw [ha]; simp [answerError, hc])
  · cases ha : env.answers i with
    | transportError err =>
      have := (hreq i h1 h2 err (by rw [ha]; rfl)).1
      rw [hnil] at this
      simp at this
    | response code status =>
      by_cases hc : code = 200
      · exact ⟨status, by rw [hc]⟩
      · have := (hreq i h1 h2 status (by rw [ha]; simp [answerError, hc])).1
        rw [hnil] at this
        simp at this

theorem Write_error_on_failed_request_witness :
    (Write exampleEnv exampleStage [] [Value.str "a", Value.num 5, Value.str "b"]).1
      = Except.ok (some "500 Internal Server Error") ∧
    1 + 1 = (Write exampleEnv exampleStage [] [Value.str "a", Value.num 5, Value.str "b"]).2.length :=
  ((Write_error_on_failed_request exampleEnv exampleStage []
    [Value.str "a", Value.num 5, Value.str "b"]).2.1 1 (by decide) (by decide)).2
    500 "500 Internal Server Error" rfl (by decide)

end http

/-! ## The dev-random origin -/

namespace dev_random

section produce

variable {G σ R : Type}

theorem produceLoop_length (d : DevRandom) (ctx : StageContext σ R) (rnd : Rand G) (k : Nat) :
    ∀ (g : G) (s : σ), (produceLoop d ctx rnd k g s).length = k := by
  induction k with
  | zero => intro g s; rfl
  | succ k ih => intro g s; simp only [produceLoop, List.length_cons, ih]

/-- The values the loop builds depend on the generator state alone, and a shorter run
builds the first values of a longer one. -/
theorem produceLoop_values (d : DevRandom) (ctx : StageContext σ R) (rnd : Rand G)
    (k : Nat) : ∀ (j : Nat) (g : G) (s1 s2 : σ),
      (produceLoop d ctx rnd k g s1).map (fun c => c.value)
        = ((produceLoop d ctx rnd (k + j) g s2).map (fun c => c.value)).take k := by
  induction k with
  | zero => intro j g s1 s2; simp [produceLoop]
  | succ k ih =>
    intro j g s1 s2
    have hk : k + 1 + j = (k + j) + 1 := by omega
    rw [hk]
    simp only [produceLoop, List.map_cons, List.take_succ_cons]
    rw [ih j]

theorem added_toError_length (cs : List (Created R)) :
    (added cs).length + (toError cs).length = cs.length := by
  induction cs with
  | nil => rfl
  | cons c cs ih =>
    cases hc : c.err with
    | none =>
      simp only [added, toError, List.filter_cons, hc, Option.isNone_none, Option.isSome_none,
        if_true, Bool.false_eq_true, if_false, List.map_cons, List.length_cons] at ih ⊢
      omega
    | some e =>
      simp only [added, toError, List.filter_cons, hc, Option.isNone_some, Option.isSome_some,
        if_true, Bool.false_eq_true, if_false, List.map_cons, List.length_cons] at ih ⊢
      omega

theorem added_length_of_no_error (cs : List (Created R)) (hn : ∀ c ∈ cs, c.err = none) :
    (added cs).length = cs.length := by
  induction cs with
  | nil => rfl
  | cons c cs ih =>
    have hc := hn c (List.mem_cons_self c cs)
    have ih2 := ih (fun x hx => hn x (List.mem_cons_of_mem c hx))
    simp only [added, List.filter_cons, hc, Option.isNone_none, if_true, List.map_cons,
      List.length_cons] at ih2 ⊢
    omega

theorem produceLoop_no_error (d : DevRandom) (ctx : StageContext σ R) (rnd : Rand G)
    (hok : ∀ s v, (ctx.CreateRecord s "dev-random" v).1.2 = none) (k : Nat) :
    ∀ (g : G) (s : σ), ∀ c ∈ produceLoop d ctx rnd k g s, c.err = none := by
  induction k with
  | zero => intro g s c hc; simp [produceLoop] at hc
  | succ k ih =>
    intro g s c hc
    simp only [produceLoop, List.mem_cons] at hc
    rcases hc with hc | hc
    · rw [hc]; exact hok _ _
    · exact ih _ _ c hc

end produce

/-- C9: `Produce` seeds its generator with the same constant on every call, so every call
repeats the same sequence: two calls with the same `maxBatchSize` build the same sequence of
record values whatever offset (and whatever state of the stage context) each is given, and
for `m ≤ n` the values built with `maxBatchSize = m` are the first `m` values built with
`maxBatchSize = n`. -/
theorem Produce_repeats_same_sequence {G σ R : Type} (d : DevRandom)
    (ctx : StageContext σ R) (rnd : Rand G) (s1 s2 : σ) (off1 off2 : String) (m n : Int) :
    (Produce d ctx rnd s1 off1 n).2.map (fun c => c.value)
      = (Produce d ctx rnd s2 off2 n).2.map (fun c => c.value) ∧
    (m ≤ n →
      (Produce d ctx rnd s1 off1 m).2.map (fun c => c.value)
        = ((Produce d ctx rnd s2 off2 n).2.map (fun c => c.value)).take m.toNat) := by
  constructor
  · have h0 := produceLoop_values d ctx rnd n.toNat 0 (rnd.NewSource 99) s1 s2
    have hlen : ((produceLoop d ctx rnd n.toNat (rnd.NewSource 99) s2).map
        (fun c => c.value)).length = n.toNat := by
      rw [List.length_map, produceLoop_length]
    simp only [Produce]
    rw [h0, Nat.add_zero]
    exact List.take_of_length_le (le_of_eq hlen)
  · intro hmn
    have hle : m.toNat ≤ n.toNat := Int.toNat_le_toNat hmn
    obtain ⟨j, hj⟩ := Nat.exists_eq_add_of_le hle
    simp only [Produce]
    rw [hj]
    exact produceLoop_values d ctx rnd m.toNat j (rnd.NewSource 99) s1 s2

theorem Produce_repeats_same_sequence_witness :
    (Produce exampleStage exampleContext exampleRand 0 "" 1).2.map (fun c => c.value)
      = ((Produce exampleStage exampleContext exampleRand 7 "random" 3).2.map
          (fun c => c.value)).take (1 : Int).toNat :=
  (Produce_repeats_same_sequence exampleStage exampleContext exampleRand 0 7 "" "random"
    1 3).2 (by decide)

/-- C10: the batch of one `Produce` call is capped at `maxBatchSize`: the records added to
the batch and the records routed to the error sink are together `max(maxBatchSize, 0)`, so
that nothing is added for `maxBatchSize ≤ 0`, at most `maxBatchSize` records are added for
`maxBatchSize ≥ 0`, and exactly `max(maxBatchSize, 0)` when `CreateRecord` never fails. -/
theorem Produce_batch_capped {G σ R : Type} (d : DevRandom) (ctx : StageContext σ R)
    (rnd : Rand G) (s : σ) (lastSourceOffset : String) (maxBatchSize : Int) :
    (((added (Produce d ctx rnd s lastSourceOffset maxBatchSize).2).length
      + (toError (Produce d ctx rnd s lastSourceOffset maxBatchSize).2).length : Nat) : Int)
      = max maxBatchSize 0 ∧
    (maxBatchSize ≤ 0 → added (Produce d ctx rnd s lastSourceOffset maxBatchSize).2 = []) ∧
    (0 ≤ maxBatchSize →
      ((added (Produce d ctx rnd s lastSourceOffset maxBatchSize).2).length : Int)
        ≤ maxBatchSize) ∧
    ((∀ s1 v, (ctx.CreateRecord s1 "dev-random" v).1.2 = none) →
      ((added (Produce d ctx rnd s lastSourceOffset maxBatchSize).2).length : Int)
        = max maxBatchSize 0) := by
  have hsum := added_toError_length (Produce d ctx rnd s lastSourceOffset maxBatchSize).2
  have hlen : (Produce d ctx rnd s lastSourceOffset maxBatchSize).2.length
      = maxBatchSize.toNat := produceLoop_length d ctx rnd _ _ _
  have hmax : ((maxBatchSize.toNat : Nat) : Int) = max maxBatchSize 0 := Int.toNat_eq_max _
  refine ⟨by rw [hsum, hlen, hmax], fun h0 => ?_, fun h0 => ?_, fun hok => ?_⟩
  · have hz : maxBatchSize.toNat = 0 := Int.toNat_eq_zero.mpr h0
    simp only [Produce, hz, produceLoop, added, List.filter_nil, List.map_nil]
  · have : (added (Produce d ctx rnd s lastSourceOffset maxBatchSize).2).length
        ≤ maxBatchSize.toNat := by omega
    omega
  · have hadd := added_length_of_no_error (Produce d ctx rnd s lastSourceOffset maxBatchSize).2
      (produceLoop_no_error d ctx rnd hok _ _ _)
    rw [hadd, hlen, hmax]

theorem Produce_batch_capped_witness :
    ((added (Produce exampleStage exampleContext exampleRand 0 "" 3).2).length : Int) ≤ 3 ∧
    added (Produce exampleStage exampleContext exampleRand 0 "" (-2)).2 = [] :=
  ⟨(Produce_batch_capped exampleStage exampleContext exampleRand 0 "" 3).2.2.1 (by decide),
   (Produce_batch_capped exampleStage exampleContext exampleRand 0 "" (-2)).2.1 (by decide)⟩

end dev_random

/-! ## The file spooler -/

namespace spooler

theorem readLines_eof (c : List Char) (n pos : Nat) (h : ¬ pos < c.length) :
    readLines c n pos = ([], pos) := by
  cases n with
  | zero => rfl
  | succ n => simp only [readLines, h, if_false]

/-- Reading `a + b` lines is reading `a` lines and then `b` lines from where that ends. -/
theorem readLines_add (c : List Char) (a b : Nat) : ∀ pos : Nat,
    readLines c (a + b) pos =
      ((readLines c a pos).1 ++ (readLines c b (readLines c a pos).2).1,
        (readLines c b (readLines c a pos).2).2) := by
  induction a with
  | zero => intro pos; simp [readLines]
  | succ a ih =>
    intro pos
    have hab : a + 1 + b = (a + b) + 1 := by omega
    rw [hab]
    by_cases h : pos < c.length
    · simp only [readLines, h, if_true, ih, List.cons_append]
    · simp only [readLines, h, if_false, readLines_eof c b pos h, List.append_nil]

/-- With as many lines allowed as bytes remain, the reader reaches the end of the file. -/
theorem readLines_reaches_end (c : List Char) (n : Nat) : ∀ pos : Nat,
    c.length ≤ pos + n → c.length ≤ (readLines c n pos).2 := by
  induction n with
  | zero => intro pos h; simpa [readLines] using h
  | succ n ih =>
    intro pos h
    by_cases hp : pos < c.length
    · simp only [readLines, hp, if_true]
      exact ih _ (by omega)
    · simp only [readLines, hp, if_false]
      omega

/-- The lines of a file from a position on are the lines of a bounded read followed by the
lines from the position the bounded read ends at. -/
theorem readLines_all_split (c : List Char) (a pos : Nat) :
    (readLines c c.length pos).1 =
      (readLines c a pos).1 ++ (readLines c c.length (readLines c a pos).2).1 := by
  have h1 := readLines_add c a c.length pos
  have h2 := readLines_add c c.length a pos
  have hend : ¬ (readLines c c.length pos).2 < c.length :=
    Nat.not_lt.mpr (readLines_reaches_end c c.length pos (by omega))
  rw [readLines_eof c a _ hend, List.append_nil] at h2
  rw [Nat.add_comm] at h1
  rw [h1] at h2
  exact (congrArg Prod.fst h2).symm

theorem readLines_nonempty (c : List Char) (n pos : Nat) (hn : 0 < n)
    (hp : pos < c.length) : (readLines c n pos).1 ≠ [] := by
  cases n with
  | zero => omega
  | succ n => simp [readLines, hp]

theorem readLines_length_le (c : List Char) (n : Nat) : ∀ pos : Nat,
    (readLines c n pos).1.length ≤ n := by
  induction n with
  | zero => intro pos; simp [readLines]
  | succ n ih =>
    intro pos
    by_cases hp : pos < c.length
    · simp only [readLines, hp, if_true, List.length_cons]
      exact Nat.succ_le_succ (ih _)
    · simp [readLines, hp]

theorem selectFile_none (l : List SpoolFile) : ∀ pos : Nat,
    selectFile l pos = none → remainingFrom l pos = [] := by
  induction l with
  | nil => intro pos _; rfl
  | cons f rest ih =>
    intro pos h
    by_cases hp : pos < f.content.toList.length
    · simp only [selectFile, hp, if_true] at h
      cases h
    · simp only [selectFile, hp, if_false] at h
      simp only [remainingFrom, readLines_eof _ _ _ hp, List.map_nil, List.nil_append]
      exact ih 0 h

theorem selectFile_some (l : List SpoolFile) : ∀ (pos : Nat) (f : SpoolFile) (q : Nat),
    selectFile l pos = some (f, q) →
      ∃ pre post, l = pre ++ f :: post ∧ q < f.content.toList.length ∧
        remainingFrom l pos =
          (readLines f.content.toList f.content.toList.length q).1.map (mkRecord f)
            ++ remainingFrom post 0 := by
  induction l with
  | nil => intro pos f q h; simp [selectFile] at h
  | cons g rest ih =>
    intro pos f q h
    by_cases hp : pos < g.content.toList.length
    · simp only [selectFile, hp, if_true, Option.some.injEq, Prod.mk.injEq] at h
      obtain ⟨hg, hq⟩ := h
      subst hg
      subst hq
      exact ⟨[], rest, rfl, hp, rfl⟩
    · simp only [selectFile, hp, if_false] at h
      obtain ⟨pre, post, hl, hq, hrem⟩ := ih 0 f q h
      refine ⟨g :: pre, post, by rw [hl]; rfl, hq, ?_⟩
      simp only [remainingFrom, readLines_eof _ _ _ hp, List.map_nil, List.nil_append]
      exact hrem

/-- In a list of files with distinct paths, dropping the files before the one with a given
path leaves that file and the files after it. -/
theorem dropWhile_path (pre post : List SpoolFile) (f : SpoolFile)
    (hnd : ((pre ++ f :: post).map (fun g => g.path)).Nodup) :
    (pre ++ f :: post).dropWhile (fun g => g.path != f.path) = f :: post := by
  induction pre with
  | nil => simp [List.dropWhile_cons]
  | cons g pre ih =>
    simp only [List.cons_append, List.map_cons, List.nodup_cons] at hnd
    have hne : g.path ≠ f.path := by
      intro hh
      apply hnd.1
      rw [hh]
      simp
    have hb : (g.path != f.path) = true := by simpa using hne
    simp only [List.cons_append, List.dropWhile_cons, hb, if_true]
    exact ih hnd.2

theorem pending_suffix (cfg : SpoolDirConfig) (directory : List DirFile) (offset : Offset) :
    (pending cfg directory offset).1 <:+ orderedFiles cfg directory := by
  cases offset with
  | none => exact List.suffix_refl _
  | some o => exact List.dropWhile_suffix _

theorem orderedFiles_nodup (cfg : SpoolDirConfig) (directory : List DirFile)
    (hnd : ((listFiles cfg directory).map (fun g => g.path)).Nodup) :
    ((orderedFiles cfg directory).map (fun g => g.path)).Nodup :=
  ((List.perm_insertionSort (fileLE cfg.readOrder) (listFiles cfg directory)).map
    (fun g => g.path)).nodup_iff.mpr hnd

/-- One call of `Produce`: its batch is the next stretch of the records still to come, and
what remains after it is what remains at the offset it returns. -/
theorem Produce_step (cfg : SpoolDirConfig) (directory : List DirFile)
    (hnd : ((listFiles cfg directory).map (fun g => g.path)).Nodup) (offset : Offset)
    (maxBatchSize : Int) :
    remaining cfg directory offset =
      (Produce cfg directory offset maxBatchSize).2
        ++ remaining cfg directory (Produce cfg directory offset maxBatchSize).1 := by
  unfold Produce
  cases hs : selectFile (pending cfg directory offset).1 (pending cfg directory offset).2 with
  | none =>
    simp only [List.nil_append]
  | some fq =>
    obtain ⟨f, q⟩ := fq
    obtain ⟨pre, post, hl, -, hrem⟩ := selectFile_some _ _ f q hs
    obtain ⟨pre0, hsuf⟩ := pending_suffix cfg directory offset
    have hord : orderedFiles cfg directory = (pre0 ++ pre) ++ f :: post := by
      rw [← hsuf, hl, List.append_assoc]
    have hdrop : (orderedFiles cfg directory).dropWhile (fun g => g.path != f.path)
        = f :: post := by
      have hnd2 := orderedFiles_nodup cfg directory hnd
      rw [hord] at hnd2 ⊢
      exact dropWhile_path _ _ f hnd2
    simp only [remaining] at hrem ⊢
    rw [hrem]
    simp only [pending, hdrop, remainingFrom]
    rw [readLines_all_split f.content.toList maxBatchSize.toNat q, List.map_append,
      List.append_assoc]

theorem Produce_progress (cfg : SpoolDirConfig) (directory : List DirFile) (offset : Offset)
    (maxBatchSize : Int) (hb : 1 ≤ maxBatchSize)
    (hrem : remaining cfg directory offset ≠ []) :
    (Produce cfg directory offset maxBatchSize).2 ≠ [] := by
  unfold Produce
  cases hs : selectFile (pending cfg directory offset).1 (pending cfg directory offset).2 with
  | none => exact absurd (selectFile_none _ _ hs) hrem
  | some fq =>
    obtain ⟨f, q⟩ := fq
    obtain ⟨pre, post, -, hq, -⟩ := selectFile_some _ _ f q hs
    simp only [ne_eq, List.map_eq_nil_iff]
    exact readLines_nonempty _ _ _ (by omega) hq

end spooler

namespace spooler

theorem remainingFrom_zero (l : List SpoolFile) :
    remainingFrom l 0 = (l.map fileRecords).flatten := by
  induction l with
  | nil => rfl
  | cons f rest ih => simp only [remainingFrom, List.map_cons, List.flatten_cons, ih, fileRecords]

/-- The batches of a run, one after the other, and the records that remain after the run
make up the records that remained at its start. -/
theorem run_stream (cfg : SpoolDirConfig) (directory : List DirFile)
    (hnd : ((listFiles cfg directory).map (fun g => g.path)).Nodup) (batchSizes : List Int) :
    ∀ offset : Offset,
      (run cfg directory offset batchSizes).1.flatten
        ++ remaining cfg directory (run cfg directory offset batchSizes).2
        = remaining cfg directory offset := by
  induction batchSizes with
  | nil => intro offset; simp [run]
  | cons b bs ih =>
    intro offset
    simp only [run, List.flatten_cons, List.append_assoc]
    rw [ih, ← Produce_step cfg directory hnd offset b]

/-- A run of enough calls, each with room for a record, emits all remaining records. -/
theorem run_complete (cfg : SpoolDirConfig) (directory : List DirFile)
    (hnd : ((listFiles cfg directory).map (fun g => g.path)).Nodup) (batchSizes : List Int) :
    ∀ offset : Offset, (∀ b ∈ batchSizes, 1 ≤ b) →
      (remaining cfg directory offset).length ≤ batchSizes.length →
      (run cfg directory offset batchSizes).1.flatten = remaining cfg directory offset := by
  induction batchSizes with
  | nil =>
    intro offset _ hlen
    have : remaining cfg directory offset = [] :=
      List.eq_nil_of_length_eq_zero (Nat.le_zero.mp hlen)
    simp [run, this]
  | cons b bs ih =>
    intro offset hpos hlen
    have hstep := Produce_step cfg directory hnd offset b
    by_cases hrem : remaining cfg directory offset = []
    · have hs := run_stream cfg directory hnd (b :: bs) offset
      rw [hrem] at hs ⊢
      exact (List.append_eq_nil.mp hs).1
    · have hprog := Produce_progress cfg directory offset b
        (hpos b (List.mem_cons_self b bs)) hrem
      have hl1 : 0 < (Produce cfg directory offset b).2.length :=
        List.length_pos.mpr hprog
      have hl2 := congrArg List.length hstep
      rw [List.length_append] at hl2
      simp only [List.length_cons] at hlen
      have hih := ih (Produce cfg directory offset b).1
        (fun x hx => hpos x (List.mem_cons_of_mem b hx)) (by omega)
      simp only [run, List.flatten_cons]
      rw [hih, ← hstep]

end spooler

namespace spooler

theorem fileLE_total (order : ReadOrder) (a b : SpoolFile) :
    fileLE order a b ∨ fileLE order b a := by
  cases order with
  | LEXICOGRAPHICAL => exact le_total a.path.toList b.path.toList
  | LAST_MODIFIED =>
    simp only [fileLE]
    rcases lt_trichotomy a.modTime b.modTime with h | h | h
    · exact Or.inl (Or.inl h)
    · rcases le_total a.path.toList b.path.toList with hp | hp
      · exact Or.inl (Or.inr ⟨h, hp⟩)
      · exact Or.inr (Or.inr ⟨h.symm, hp⟩)
    · exact Or.inr (Or.inl h)

theorem fileLE_trans (order : ReadOrder) (a b c : SpoolFile) (hab : fileLE order a b)
    (hbc : fileLE order b c) : fileLE order a c := by
  cases order with
  | LEXICOGRAPHICAL => exact le_trans hab hbc
  | LAST_MODIFIED =>
    simp only [fileLE] at hab hbc ⊢
    rcases hab with h1 | ⟨h1, p1⟩
    · rcases hbc with h2 | ⟨h2, -⟩
      · exact Or.inl (lt_trans h1 h2)
      · exact Or.inl (h2 ▸ h1)
    · rcases hbc with h2 | ⟨h2, p2⟩
      · exact Or.inl (h1 ▸ h2)
      · exact Or.inr ⟨h1.trans h2, le_trans p1 p2⟩

theorem orderedFiles_sorted (cfg : SpoolDirConfig) (directory : List DirFile) :
    (orderedFiles cfg directory).Pairwise (fileLE cfg.readOrder) :=
  @List.sorted_insertionSort _ (fileLE cfg.readOrder) _ ⟨fileLE_total cfg.readOrder⟩
    ⟨fileLE_trans cfg.readOrder⟩ (listFiles cfg directory)

/-- With distinct paths the scan is strictly ascending: by path under the lexicographic
policy, by modification time and then path under the last-modified policy. -/
theorem orderedFiles_strict (cfg : SpoolDirConfig) (directory : List DirFile)
    (hnd : ((listFiles cfg directory).map (fun g => g.path)).Nodup) :
    (cfg.readOrder = ReadOrder.LEXICOGRAPHICAL →
      (orderedFiles cfg directory).Pairwise (fun a b => a.path < b.path)) ∧
    (cfg.readOrder = ReadOrder.LAST_MODIFIED →
      (orderedFiles cfg directory).Pairwise (fun a b =>
        a.modTime < b.modTime ∨ (a.modTime = b.modTime ∧ a.path < b.path))) := by
  have hs := orderedFiles_sorted cfg directory
  have hn : (orderedFiles cfg directory).Pairwise (fun a b => a.path ≠ b.path) :=
    (List.pairwise_map).mp (orderedFiles_nodup cfg directory hnd)
  have hboth := hs.and hn
  have hlt : ∀ a b : SpoolFile, a.path.toList ≤ b.path.toList → a.path ≠ b.path →
      a.path < b.path := by
    intro a b hle hne
    rw [String.lt_iff_toList_lt]
    refine lt_of_le_of_ne hle (fun hh => hne ?_)
    exact String.ext hh
  constructor
  · intro ho
    rw [ho] at hboth
    exact hboth.imp (fun {a b} h => hlt a b h.1 h.2)
  · intro ho
    rw [ho] at hboth
    refine hboth.imp (fun {a b} h => ?_)
    rcases h.1 with h1 | ⟨h1, p1⟩
    · exact Or.inl h1
    · exact Or.inr ⟨h1, hlt a b p1 h.2⟩

theorem fileRecords_file (f : SpoolFile) :
    (fileRecords f).map (fun r => r.file) = List.replicate (fileRecords f).length f.path := by
  unfold fileRecords
  generalize (readLines f.content.toList f.content.toList.length 0).1 = ls
  induction ls with
  | nil => rfl
  | cons l ls ih =>
    simp only [List.map_cons, List.length_cons, List.replicate_succ, List.cons.injEq]
    exact ⟨rfl, ih⟩

theorem flatten_map_file (l : List SpoolFile) :
    ((l.map fileRecords).flatten).map (fun r => r.file)
      = (l.map (fun f => List.replicate (fileRecords f).length f.path)).flatten := by
  induction l with
  | nil => rfl
  | cons f rest ih =>
    simp only [List.map_cons, List.flatten_cons, List.map_append, ih, fileRecords_file]

/-- C6: a run of `Produce` calls that starts from the empty offset and feeds each call the
offset of the previous one visits the files in the order of the configured policy. The file
attributes of the emitted records, in order, are always an initial stretch of the files of
the scan in order, each repeated once per record of the file; with enough calls that each
have room for a record they are all of it, so that no file is skipped. The scan holds every
listed file once and is strictly ascending: by full path under the lexicographic policy, by
modification time (ties by path) under the last-modified policy, whatever the names and the
depth of the files. -/
theorem run_visits_files_in_order (cfg : SpoolDirConfig) (directory : List DirFile)
    (hnd : ((listFiles cfg directory).map (fun f => f.path)).Nodup) (batchSizes : List Int) :
    ((run cfg directory none batchSizes).1.flatten.map (fun r => r.file)
      <+: ((orderedFiles cfg directory).map
            (fun f => List.replicate (fileRecords f).length f.path)).flatten) ∧
    ((∀ b ∈ batchSizes, 1 ≤ b) →
      ((orderedFiles cfg directory).map fileRecords).flatten.length ≤ batchSizes.length →
      (run cfg directory none batchSizes).1.flatten.map (fun r => r.file)
        = ((orderedFiles cfg directory).map
            (fun f => List.replicate (fileRecords f).length f.path)).flatten) ∧
    (orderedFiles cfg directory).Perm (listFiles cfg directory) ∧
    (cfg.readOrder = ReadOrder.LEXICOGRAPHICAL →
      (orderedFiles cfg directory).Pairwise (fun a b => a.path < b.path)) ∧
    (cfg.readOrder = ReadOrder.LAST_MODIFIED →
      (orderedFiles cfg directory).Pairwise (fun a b =>
        a.modTime < b.modTime ∨ (a.modTime = b.modTime ∧ a.path < b.path))) := by
  have hall : remaining cfg directory none
      = ((orderedFiles cfg directory).map fileRecords).flatten := by
    simp only [remaining, pending, remainingFrom_zero]
  refine ⟨?_, fun hpos hlen => ?_, List.perm_insertionSort _ _,
    (orderedFiles_strict cfg directory hnd).1, (orderedFiles_strict cfg directory hnd).2⟩
  · have hs := run_stream cfg directory hnd batchSizes none
    rw [hall] at hs
    rw [← flatten_map_file, ← hs, List.map_append]
    exact List.prefix_append _ _
  · rw [← hall] at hlen
    rw [run_complete cfg directory hnd batchSizes none hpos hlen, hall, flatten_map_file]

theorem run_visits_files_in_order_witness :
    (run (testConfig false ReadOrder.LAST_MODIFIED) testDirLastModified none
        [3, 2, 2, 2, 1, 1, 1]).1.flatten.map (fun r => r.file)
      = ["/tmp/test/a.txt", "/tmp/test/a.txt", "/tmp/test/c.txt", "/tmp/test/c.txt",
          "/tmp/test/c.txt", "/tmp/test/b.txt", "/tmp/test/b.txt"] :=
  ((run_visits_files_in_order (testConfig false ReadOrder.LAST_MODIFIED) testDirLastModified
    (by decide) [3, 2, 2, 2, 1, 1, 1]).2.1 (by decide) (by decide)).trans (by decide)

end spooler

namespace spooler

theorem takeWhile_line (l rest : List Char) (hl : ∀ ch ∈ l, ch ≠ '\n')
    (hrest : rest = [] ∨ ∃ tl, rest = '\n' :: tl) :
    (l ++ rest).takeWhile (fun c => c != '\n') = l := by
  induction l with
  | nil =>
    rcases hrest with h | ⟨tl, h⟩
    · rw [h]; rfl
    · rw [h]; simp [List.takeWhile_cons]
  | cons ch l ih =>
    have hch : (ch != '\n') = true := by simpa using hl ch (List.mem_cons_self ch l)
    simp only [List.cons_append, List.takeWhile_cons, hch, if_true, List.cons.injEq, true_and]
    exact ih (fun x hx => hl x (List.mem_cons_of_mem ch hx))

/-- Reading a file whose bytes from `pos` on are the given lines joined by newlines yields
these lines with their positions and ends at or after the end of the file. -/
theorem readLines_joinLines (f : SpoolFile) (trailing : Bool) :
    ∀ (lines : List (List Char)) (pos n : Nat), lines ≠ [] →
      (∀ l ∈ lines, ∀ ch ∈ l, ch ≠ '\n') →
      (trailing = false → lines.getLast? ≠ some []) →
      f.content.toList.drop pos = joinLines lines trailing →
      lines.length ≤ n →
      (readLines f.content.toList n pos).1.map (mkRecord f) = lineRecords f.path lines pos ∧
      f.content.toList.length ≤ (readLines f.content.toList n pos).2 := by
  intro lines
  induction lines with
  | nil => intro pos n hne; exact absurd rfl hne
  | cons l ls ih =>
    intro pos n _ hnl hlast hdrop hn
    obtain ⟨n, rfl⟩ : ∃ m, n = m + 1 := ⟨n - 1, by simp only [List.length_cons] at hn; omega⟩
    have hl := hnl l (List.mem_cons_self l ls)
    cases ls with
    | nil =>
      simp only [joinLines] at hdrop
      have hnonempty : f.content.toList.drop pos ≠ [] := by
        rw [hdrop]
        cases trailing with
        | true => simp
        | false =>
          have := hlast rfl
          simp only [List.getLast?_singleton, ne_eq, Option.some.injEq] at this
          simpa using this
      have hp : pos < f.content.toList.length := by
        by_contra hcon
        exact hnonempty (List.drop_eq_nil_iff.mpr (Nat.le_of_not_lt hcon))
      have htake : (f.content.toList.drop pos).takeWhile (fun c => c != '\n') = l := by
        rw [hdrop]
        refine takeWhile_line l _ hl ?_
        cases trailing with
        | true => exact Or.inr ⟨[], rfl⟩
        | false => exact Or.inl rfl
      have hend : ¬ pos + l.length + 1 < f.content.toList.length := by
        have hlen := congrArg List.length hdrop
        rw [List.length_drop, List.length_append] at hlen
        cases trailing with
        | true => simp only [if_true, List.length_singleton] at hlen; omega
        | false => simp only [Bool.false_eq_true, if_false, List.length_nil] at hlen; omega
      simp only [readLines, hp, if_true, htake, readLines_eof _ n _ hend, List.map_cons,
        List.map_nil, lineRecords, mkRecord]
      exact ⟨trivial, by omega⟩
    | cons l2 ls2 =>
      simp only [joinLines] at hdrop
      have hp : pos < f.content.toList.length := by
        by_contra hcon
        have := List.drop_eq_nil_iff.mpr (Nat.le_of_not_lt hcon)
        rw [this] at hdrop
        simp at hdrop
      have htake : (f.content.toList.drop pos).takeWhile (fun c => c != '\n') = l := by
        rw [hdrop]
        exact takeWhile_line l _ hl (Or.inr ⟨_, rfl⟩)
      have hdrop2 : f.content.toList.drop (pos + l.length + 1)
          = joinLines (l2 :: ls2) trailing := by
        have h1 : f.content.toList.drop (pos + l.length + 1)
            = (f.content.toList.drop pos).drop (l.length + 1) := by
          rw [List.drop_drop]
          congr 1
        rw [h1, hdrop, List.drop_append_eq_append_drop]
        simp
      have hrec := ih (pos + l.length + 1) n (by simp)
        (fun x hx => hnl x (List.mem_cons_of_mem l hx))
        (fun ht => by
          have := hlast ht
          simpa [List.getLast?_cons_cons] using this)
        hdrop2 (by simp only [List.length_cons] at hn ⊢; omega)
      simp only [readLines, hp, if_true, htake, List.map_cons, lineRecords]
      exact ⟨by rw [hrec.1]; rfl, hrec.2⟩

theorem fileRecords_joinLines (f : SpoolFile) (lines : List (List Char)) (trailing : Bool)
    (hne : lines ≠ []) (hnl : ∀ l ∈ lines, ∀ ch ∈ l, ch ≠ '\n')
    (hlast : trailing = false → lines.getLast? ≠ some [])
    (hcontent : f.content.toList = joinLines lines trailing) :
    fileRecords f = lineRecords f.path lines 0 := by
  obtain ⟨h1, h2⟩ := readLines_joinLines f trailing lines 0 lines.length hne hnl hlast
    (by rw [List.drop_zero]; exact hcontent) (le_refl _)
  unfold fileRecords
  rw [readLines_all_split f.content.toList lines.length 0,
    readLines_eof _ _ _ (Nat.not_lt.mpr h2), List.append_nil, h1]

theorem fileRecords_mem_file (f : SpoolFile) : ∀ r ∈ fileRecords f, r.file = f.path := by
  intro r hr
  simp only [fileRecords, List.mem_map] at hr
  obtain ⟨l, -, hl⟩ := hr
  rw [← hl]
  rfl

theorem filter_other_files (l : List SpoolFile) (path : String)
    (hl : ∀ g ∈ l, g.path ≠ path) :
    ((l.map fileRecords).flatten).filter (fun r => r.file = path) = [] := by
  rw [List.filter_eq_nil_iff]
  intro r hr
  simp only [List.mem_flatten, List.mem_map] at hr
  obtain ⟨rs, ⟨g, hg, hrs⟩, hmem⟩ := hr
  subst hrs
  rw [fileRecords_mem_file g r hmem]
  simpa using hl g hg

/-- Among the records of files with distinct paths, those that carry the path of one of the
files are the records of that file. -/
theorem filter_file (l : List SpoolFile) (f : SpoolFile) (hf : f ∈ l)
    (hnd : (l.map (fun g => g.path)).Nodup) :
    ((l.map fileRecords).flatten).filter (fun r => r.file = f.path) = fileRecords f := by
  obtain ⟨pre, post, hl⟩ := List.append_of_mem hf
  subst hl
  simp only [List.map_append, List.map_cons, List.nodup_append, List.nodup_cons,
    List.mem_map, not_exists, not_and] at hnd
  obtain ⟨-, ⟨hpost, -⟩, hdisj⟩ := hnd
  have hpre : ∀ g ∈ pre, g.path ≠ f.path := by
    intro g hg hh
    exact hdisj (List.mem_map.mpr ⟨g, hg, rfl⟩) (by rw [hh]; exact List.mem_cons_self _ _)
  have hpost2 : ∀ g ∈ post, g.path ≠ f.path := fun g hg => hpost g hg
  simp only [List.map_append, List.map_cons, List.flatten_append, List.flatten_cons,
    List.filter_append, filter_other_files pre f.path hpre,
    filter_other_files post f.path hpost2, List.nil_append, List.append_nil]
  rw [List.filter_eq_self]
  intro r hr
  simpa using fileRecords_mem_file f r hr

/-- Record `i` of `lineRecords` has line `i` as value and, as offset, `start` plus the sum
of the lengths, each plus one, of the lines before it. -/
theorem lineRecords_getElem (path : String) (lines : List (List Char)) :
    ∀ (start i : Nat), (lineRecords path lines start)[i]? =
      (lines[i]?).map (fun l =>
        { value := String.mk l, file := path, filename := baseName path,
          offset := toString (start + ((lines.take i).map (fun x => x.length + 1)).sum) }) := by
  induction lines with
  | nil => intro start i; simp [lineRecords]
  | cons l ls ih =>
    intro start i
    cases i with
    | zero => simp [lineRecords]
    | succ i =>
      simp only [lineRecords, List.getElem?_cons_succ, ih, List.take_succ_cons, List.map_cons,
        List.sum_cons]
      congr
      funext x
      congr 2
      omega

/-- C7: for a listed file whose content is the lines `l1..ln` joined by a newline, the
last line with or without a newline after it (no line holds a newline; a last line without
newline is not empty, as the end of the file would else come before it), and for every run
from the empty offset in which every call gets only the offset of the previous call,
whatever the batch sizes: the records emitted for the file are always an initial stretch of
`l1..ln`, each once and in order, and they are exactly `l1..ln` as soon as the run has read
everything (no record remains at the offset the last call returned). Record `i` has the
line as value, the full path and the bare name of the file as attributes, and as offset
attribute the position at which the line begins, the sum of `length(l_j) + 1` over the lines
before it. -/
theorem records_of_file_are_its_lines (cfg : SpoolDirConfig) (directory : List DirFile)
    (hnd : ((listFiles cfg directory).map (fun g => g.path)).Nodup)
    (f : SpoolFile) (hf : f ∈ listFiles cfg directory)
    (lines : List (List Char)) (trailing : Bool)
    (hne : lines ≠ []) (hnl : ∀ l ∈ lines, ∀ ch ∈ l, ch ≠ '\n')
    (hlast : trailing = false → lines.getLast? ≠ some [])
    (hcontent : f.content.toList = joinLines lines trailing)
    (batchSizes : List Int) :
    ((run cfg directory none batchSizes).1.flatten.filter (fun r => r.file = f.path)
      <+: lineRecords f.path lines 0) ∧
    (remaining cfg directory (run cfg directory none batchSizes).2 = [] →
      (run cfg directory none batchSizes).1.flatten.filter (fun r => r.file = f.path)
        = lineRecords f.path lines 0) ∧
    (lineRecords f.path lines 0).length = lines.length ∧
    ∀ i : Nat, (lineRecords f.path lines 0)[i]? =
      (lines[i]?).map (fun l =>
        { value := String.mk l, file := f.path, filename := baseName f.path,
          offset := toString (((lines.take i).map (fun x => x.length + 1)).sum) }) := by
  have hall : remaining cfg directory none
      = ((orderedFiles cfg directory).map fileRecords).flatten := by
    simp only [remaining, pending, remainingFrom_zero]
  have hford : f ∈ orderedFiles cfg directory :=
    (List.perm_insertionSort _ _).mem_iff.mpr hf
  have hfile : ((orderedFiles cfg directory).map fileRecords).flatten.filter
      (fun r => r.file = f.path) = lineRecords f.path lines 0 := by
    rw [filter_file _ f hford (orderedFiles_nodup cfg directory hnd),
      fileRecords_joinLines f lines trailing hne hnl hlast hcontent]
  have hs := run_stream cfg directory hnd batchSizes none
  rw [hall] at hs
  refine ⟨?_, fun hdone => ?_, ?_, fun i => ?_⟩
  · rw [← hfile, ← hs, List.filter_append]
    exact List.prefix_append _ _
  · rw [hdone, List.append_nil] at hs
    rw [hs, hfile]
  · clear hne hnl hlast hcontent hfile
    generalize 0 = start
    induction lines generalizing start with
    | nil => rfl
    | cons l ls ih => simp only [lineRecords, List.length_cons, ih]
  · have := lineRecords_getElem f.path lines 0 i
    simpa using this

theorem records_of_file_are_its_lines_witness :
    (run (testConfig false ReadOrder.LAST_MODIFIED) testDirLastModified none
        [3, 2, 2, 2]).1.flatten.filter (fun r => r.file = "/tmp/test/c.txt")
      = [ { value := "111112113", file := "/tmp/test/c.txt", filename := "c.txt",
            offset := "0" },
          { value := "114115116", file := "/tmp/test/c.txt", filename := "c.txt",
            offset := "10" },
          { value := "117118119", file := "/tmp/test/c.txt", filename := "c.txt",
            offset := "20" } ] :=
  ((records_of_file_are_its_lines (testConfig false ReadOrder.LAST_MODIFIED)
    testDirLastModified (by decide)
    { path := "/tmp/test/c.txt", modTime := -2,
      content := "111112113\n114115116\n117118119" } (by decide)
    ["111112113".toList, "114115116".toList, "117118119".toList] false (by decide)
    (by decide) (by decide) (by decide) [3, 2, 2, 2]).2.1 (by decide)).trans
    (by decide)

end spooler

namespace spooler

/-- The model passes `TestUseLastModified`: batches of sizes 3, 2, 2, 2 from the empty
offset. -/
theorem test_UseLastModified :
    (run (testConfig false ReadOrder.LAST_MODIFIED) testDirLastModified none [3, 2, 2, 2]).1
      = [ [ { value := "123", file := "/tmp/test/a.txt", filename := "a.txt", offset := "0" },
            { value := "456", file := "/tmp/test/a.txt", filename := "a.txt", offset := "4" } ],
          [ { value := "111112113", file := "/tmp/test/c.txt", filename := "c.txt",
              offset := "0" },
            { value := "114115116", file := "/tmp/test/c.txt", filename := "c.txt",
              offset := "10" } ],
          [ { value := "117118119", file := "/tmp/test/c.txt", filename := "c.txt",
              offset := "20" } ],
          [ { value := "111213", file := "/tmp/test/b.txt", filename := "b.txt",
              offset := "0" },
            { value := "141516", file := "/tmp/test/b.txt", filename := "b.txt",
              offset := "7" } ] ] := by
  decide

/-- The model passes `TestLexicographical`: batches of sizes 3, 2, 2, 2 from the empty
offset. -/
theorem test_Lexicographical :
    (run (testConfig false ReadOrder.LEXICOGRAPHICAL) testDirLexicographical none
        [3, 2, 2, 2]).1
      = [ [ { value := "123", file := "/tmp/test/a.txt", filename := "a.txt", offset := "0" },
            { value := "456", file := "/tmp/test/a.txt", filename := "a.txt", offset := "4" } ],
          [ { value := "111213", file := "/tmp/test/b.txt", filename := "b.txt",
              offset := "0" },
            { value := "141516", file := "/tmp/test/b.txt", filename := "b.txt",
              offset := "7" } ],
          [ { value := "111112113", file := "/tmp/test/c.txt", filename := "c.txt",
              offset := "0" },
            { value := "114115116", file := "/tmp/test/c.txt", filename := "c.txt",
              offset := "10" } ],
          [ { value := "117118119", file := "/tmp/test/c.txt", filename := "c.txt",
              offset := "20" } ] ] := by
  decide

/-- The model passes `TestSubDirectories`: nine calls with `maxBatchSize` 10 give one record
each, in the order in which the files were created. -/
theorem test_SubDirectories :
    (run (testConfig true ReadOrder.LAST_MODIFIED) testDirSubDirectories none
        [10, 10, 10, 10, 10, 10, 10, 10, 10]).1
      = [ [ { value := "sample text", file := "/tmp/test/a/b/Q", filename := "Q",
              offset := "0" } ],
          [ { value := "sample text", file := "/tmp/test/b/c/d/D", filename := "D",
              offset := "0" } ],
          [ { value := "sample text", file := "/tmp/test/e/f/g/h/X", filename := "X",
              offset := "0" } ],
          [ { value := "sample text", file := "/tmp/test/i/j/A", filename := "A",
              offset := "0" } ],
          [ { value := "sample text", file := "/tmp/test/k/l/m/n/M", filename := "M",
              offset := "0" } ],
          [ { value := "sample text", file := "/tmp/test/o/p/q/r/s/B", filename := "B",
              offset := "0" } ],
          [ { value := "sample text", file := "/tmp/test/u/T", filename := "T",
              offset := "0" } ],
          [ { value := "sample text", file := "/tmp/test/v/w/K", filename := "K",
              offset := "0" } ],
          [ { value := "sample text", file := "/tmp/test/x/y/z/C", filename := "C",
              offset := "0" } ] ] := by
  decide

/-- C8 (amended): a `Produce` call reads one file only. Every record of its batch comes from
the file the returned offset names, and the batch holds at most `maxBatchSize` records; when
the end of that file is reached the call ends, with whatever room the batch has left. -/
theorem Produce_batch_from_one_file (cfg : SpoolDirConfig) (directory : List DirFile)
    (offset : Offset) (maxBatchSize : Int) :
    (∀ r ∈ (Produce cfg directory offset maxBatchSize).2,
      ∃ pos, (Produce cfg directory offset maxBatchSize).1 = some (r.file, pos)) ∧
    ((Produce cfg directory offset maxBatchSize).2.length : Int) ≤ max maxBatchSize 0 := by
  unfold Produce
  cases hs : selectFile (pending cfg directory offset).1 (pending cfg directory offset).2 with
  | none => simp
  | some fq =>
    obtain ⟨f, q⟩ := fq
    refine ⟨fun r hr => ?_, ?_⟩
    · simp only [List.mem_map] at hr
      obtain ⟨l, -, hl⟩ := hr
      exact ⟨_, by rw [← hl]; rfl⟩
    · simp only [List.length_map]
      have := readLines_length_le f.content.toList maxBatchSize.toNat q
      omega

/-- C8 (counterexample): in the directory of `TestLexicographical` the first call, with
`maxBatchSize` 3, reaches the end of `a.txt` after two records. It has room for a third
record and `b.txt` is the next file of the order, yet the batch holds the two records of
`a.txt` only; the records of `b.txt` come with the next call. -/
theorem Produce_stops_at_end_of_file :
    Produce (testConfig false ReadOrder.LEXICOGRAPHICAL) testDirLexicographical none 3
      = (some ("/tmp/test/a.txt", 8),
          [ { value := "123", file := "/tmp/test/a.txt", filename := "a.txt", offset := "0" },
            { value := "456", file := "/tmp/test/a.txt", filename := "a.txt",
              offset := "4" } ]) ∧
    (orderedFiles (testConfig false ReadOrder.LEXICOGRAPHICAL) testDirLexicographical).map
        (fun f => f.path)
      = ["/tmp/test/a.txt", "/tmp/test/b.txt", "/tmp/test/c.txt"] ∧
    (Produce (testConfig false ReadOrder.LEXICOGRAPHICAL) testDirLexicographical
        (some ("/tmp/test/a.txt", 8)) 2).2
      = [ { value := "111213", file := "/tmp/test/b.txt", filename := "b.txt",
            offset := "0" },
          { value := "141516", file := "/tmp/test/b.txt", filename := "b.txt",
            offset := "7" } ] := by
  decide

end spooler

namespace manager

/-- C11: `StartPipeline`, `StopPipeline` and `ResetOffset` of the manager are thin
delegations. Each is `GetRunner(id)` followed by the runner operation of the same name: it
returns what that operation returns on the runner object `GetRunner` yields, leaves the
manager (the registry) exactly as `GetRunner` alone leaves it, replaces on the heap only
that runner object by its state after the operation, and passes on a panic of `GetRunner`.
On an unseen id whose construction succeeds, the new runner is created, cached under the id
and operated on in the same call. -/
theorem manager_operations_delegate {C I S P A E ρ : Type} (R : RunnerPkg C I S P A E ρ)
    (p : PipelineManager C I S) (h : Heap ρ) (pipelineId : String) (runtimeParameters : P) :
    (StartPipeline R p h pipelineId runtimeParameters
        = delegation R p h pipelineId (fun o => R.StartPipeline o runtimeParameters) ∧
      StopPipeline R p h pipelineId = delegation R p h pipelineId R.StopPipeline ∧
      ResetOffset R p h pipelineId = delegation R p h pipelineId R.ResetOffset) ∧
    (∀ (a : Nat) (p1 : PipelineManager C I S) (h1 : Heap ρ) (o : ρ),
      GetRunner R p h pipelineId = Except.ok (some a, p1, h1) → h1.runners.get? a = some o →
      StartPipeline R p h pipelineId runtimeParameters
        = Except.ok ((R.StartPipeline o runtimeParameters).2, p1,
            { h1 with runners := h1.runners.set a (R.StartPipeline o runtimeParameters).1 }) ∧
      StopPipeline R p h pipelineId
        = Except.ok ((R.StopPipeline o).2, p1,
            { h1 with runners := h1.runners.set a (R.StopPipeline o).1 }) ∧
      ResetOffset R p h pipelineId
        = Except.ok ((R.ResetOffset o).2, p1,
            { h1 with runners := h1.runners.set a (R.ResetOffset o).1 })) ∧
    (∀ e, GetRunner R p h pipelineId = Except.error e →
      StartPipeline R p h pipelineId runtimeParameters = Except.error e ∧
      StopPipeline R p h pipelineId = Except.error e ∧
      ResetOffset R p h pipelineId = Except.error e) ∧
    (∀ o, lookup p pipelineId = none →
      R.NewStandaloneRunner pipelineId p.config p.runtimeInfo p.pipelineStoreTask
        = (some o, none) →
      StartPipeline R p h pipelineId runtimeParameters
        = Except.ok ((R.StartPipeline o runtimeParameters).2,
            { p with runnerMap := GoMap.set p.runnerMap pipelineId (some h.runners.length) },
            { runners := h.runners ++ [(R.StartPipeline o runtimeParameters).1],
              constructed := h.constructed ++ [pipelineId] })) := by
  refine ⟨⟨?_, ?_, ?_⟩, fun a p1 h1 o hg ho => ?_, fun e hg => ?_, fun o hn hc => ?_⟩
  · unfold StartPipeline delegation
    cases hg : GetRunner R p h pipelineId with
    | error e => rfl
    | ok g =>
      obtain ⟨ptr, p1, h1⟩ := g
      simp only [Except.bind]
      cases callRunner h1 ptr (fun o => R.StartPipeline o runtimeParameters) <;> rfl
  · unfold StopPipeline delegation
    cases hg : GetRunner R p h pipelineId with
    | error e => rfl
    | ok g =>
      obtain ⟨ptr, p1, h1⟩ := g
      simp only [Except.bind]
      cases callRunner h1 ptr R.StopPipeline <;> rfl
  · unfold ResetOffset delegation
    cases hg : GetRunner R p h pipelineId with
    | error e => rfl
    | ok g =>
      obtain ⟨ptr, p1, h1⟩ := g
      simp only [Except.bind]
      cases callRunner h1 ptr R.ResetOffset <;> rfl
  · simp only [StartPipeline, StopPipeline, ResetOffset, hg, callRunner, ho, and_self]
  · simp only [StartPipeline, StopPipeline, ResetOffset, hg, and_self]
  · have hg : GetRunner R p h pipelineId = Except.ok (some h.runners.length,
        { p with runnerMap := GoMap.set p.runnerMap pipelineId (some h.runners.length) },
        { runners := h.runners ++ [o], constructed := h.constructed ++ [pipelineId] }) := by
      simp [GetRunner, hn, hc, alloc, lookup_set_self]
    simp only [StartPipeline, hg, callRunner]
    simp

theorem manager_operations_delegate_witness :
    StartPipeline exampleRunners exampleStart.1 exampleStart.2 "a" ()
      = Except.ok (1, { exampleStart.1 with runnerMap := [("a", some 0)] },
          { runners := [("a", 1)], constructed := ["a"] }) ∧
    ResetOffset exampleRunners { exampleStart.1 with runnerMap := [("a", some 0)] }
        { runners := [("a", 5)], constructed := ["a"] } "a"
      = Except.ok (true, { exampleStart.1 with runnerMap := [("a", some 0)] },
          { runners := [("a", 0)], constructed := ["a"] }) :=
  ⟨(manager_operations_delegate exampleRunners exampleStart.1 exampleStart.2 "a" ()).2.2.2
      ("a", 0) (by decide) (by decide),
   ((manager_operations_delegate exampleRunners
      { exampleStart.1 with runnerMap := [("a", some 0)] }
      { runners := [("a", 5)], constructed := ["a"] } "a" ()).2.1 0
      { exampleStart.1 with runnerMap := [("a", some 0)] }
      { runners := [("a", 5)], constructed := ["a"] } ("a", 5) (by rfl) (by rfl)).2.2⟩

end manager

namespace manager

section racing

variable {C I S P A E ρ : Type}

/-- A call of `GetRunner` that takes its steps without another call in between does what
`GetRunner` does: it has ended after four steps, with the pointer, the manager and the heap
of `GetRunner`, or with its panic. -/
theorem callSteps_GetRunner (R : RunnerPkg C I S P A E ρ) (p : PipelineManager C I S)
    (h : Heap ρ) (pipelineId : String) :
    (∀ ptr p1 h1, GetRunner R p h pipelineId = Except.ok (ptr, p1, h1) →
      callSteps R pipelineId 4 ((p, h), Pc.check) = ((p1, h1), Pc.done ptr)) ∧
    (∀ e, GetRunner R p h pipelineId = Except.error e →
      (callSteps R pipelineId 4 ((p, h), Pc.check)).2 = Pc.panicked e) := by
  unfold GetRunner
  by_cases hn : lookup p pipelineId = none
  · cases hr : (R.NewStandaloneRunner pipelineId p.config p.runtimeInfo
        p.pipelineStoreTask).2 with
    | some err =>
      simp only [hn, if_true, hr, reduceCtorEq, false_implies, implies_true, true_and,
        Except.error.injEq]
      intro e he
      subst he
      simp only [callSteps, callStep, hn, if_true, hr]
    | none =>
      simp only [hn, if_true, hr, Except.ok.injEq, Prod.mk.injEq, reduceCtorEq,
        false_implies, implies_true, and_true]
      intro ptr p1 h1 hp
      obtain ⟨h1a, h1b, h1c⟩ := hp
      subst h1a h1b h1c
      simp only [callSteps, callStep, hn, if_true, hr]
  · simp only [hn, if_false, Except.ok.injEq, Prod.mk.injEq, reduceCtorEq, false_implies,
      implies_true, and_true]
    intro ptr p1 h1 hp
    obtain ⟨h1a, h1b, h1c⟩ := hp
    subst h1a h1b h1c
    simp only [callSteps, callStep, hn, if_false]

/-- Once the registry holds a runner for the id and the first call has returned it, whatever
steps follow leave the manager and the heap as they are, and the second call can only test,
return, or have returned that same runner. -/
theorem race_after_first (R : RunnerPkg C I S P A E ρ) (pipelineId : String)
    (s : PipelineManager C I S × Heap ρ) (a : Nat) (hs : lookup s.1 pipelineId = some a)
    (schedule : List Bool) : ∀ c : Racing C I S ρ,
      c.shared = s → c.first = Pc.done (some a) →
      (c.second = Pc.check ∨ c.second = Pc.ret ∨ c.second = Pc.done (some a)) →
      (schedule.foldl (raceStep R pipelineId) c).shared = s ∧
      (schedule.foldl (raceStep R pipelineId) c).first = Pc.done (some a) ∧
      ((schedule.foldl (raceStep R pipelineId) c).second = Pc.check ∨
        (schedule.foldl (raceStep R pipelineId) c).second = Pc.ret ∨
        (schedule.foldl (raceStep R pipelineId) c).second = Pc.done (some a)) := by
  induction schedule with
  | nil => intro c h1 h2 h3; exact ⟨h1, h2, h3⟩
  | cons b bs ih =>
    intro c h1 h2 h3
    simp only [List.foldl_cons]
    apply ih
    · cases b with
      | false => simp only [raceStep, Bool.false_eq_true, if_false, h2, callStep, h1]
      | true =>
        simp only [raceStep, if_true]
        rcases h3 with h3 | h3 | h3 <;> simp [h3, callStep, h1, hs]
    · cases b with
      | false => simp only [raceStep, Bool.false_eq_true, if_false, h2, callStep]
      | true => simp only [raceStep, if_true, h2]
    · cases b with
      | false => simp only [raceStep, Bool.false_eq_true, if_false]; exact h3
      | true =>
        simp only [raceStep, if_true]
        rcases h3 with h3 | h3 | h3 <;> simp [h3, callStep, h1, hs]

end racing

/-- C12 (amended): `GetRunner` does not serialize access to the registry. Two first-time
calls for the same unseen id that do not overlap, the first (here the call named first)
taking all its four steps before the second takes any, yield the same runner and construct
one runner only: whatever steps follow, the first call has returned the new runner, the
record of constructor calls has grown by this one call, the second call never constructs,
and after its two steps it has returned the same runner. -/
theorem nonoverlapping_calls_share_one_runner {C I S P A E ρ : Type}
    (R : RunnerPkg C I S P A E ρ) (p : PipelineManager C I S) (h : Heap ρ)
    (pipelineId : String) (o : ρ) (hn : lookup p pipelineId = none)
    (hc : R.NewStandaloneRunner pipelineId p.config p.runtimeInfo p.pipelineStoreTask
      = (some o, none))
    (schedule : List Bool) :
    (race R pipelineId p h ([false, false, false, false] ++ schedule)).first
      = Pc.done (some h.runners.length) ∧
    (race R pipelineId p h ([false, false, false, false] ++ schedule)).shared.2.constructed
      = h.constructed ++ [pipelineId] ∧
    ((race R pipelineId p h ([false, false, false, false] ++ schedule)).second = Pc.check ∨
      (race R pipelineId p h ([false, false, false, false] ++ schedule)).second = Pc.ret ∨
      (race R pipelineId p h ([false, false, false, false] ++ schedule)).second
        = Pc.done (some h.runners.length)) ∧
    (race R pipelineId p h [false, false, false, false, true, true]).second
      = Pc.done (some h.runners.length) := by
  have h4 : List.foldl (raceStep R pipelineId)
      { shared := (p, h), first := Pc.check, second := Pc.check } [false, false, false, false]
      = { shared :=
            ({ p with
                runnerMap := GoMap.set p.runnerMap pipelineId (some h.runners.length) },
              { runners := h.runners ++ [o], constructed := h.constructed ++ [pipelineId] }),
          first := Pc.done (some h.runners.length), second := Pc.check } := by
    simp [raceStep, callStep, hn, hc, alloc, lookup_set_self]
  have hinv := race_after_first R pipelineId
    ({ p with runnerMap := GoMap.set p.runnerMap pipelineId (some h.runners.length) },
      { runners := h.runners ++ [o], constructed := h.constructed ++ [pipelineId] })
    h.runners.length (lookup_set_self p pipelineId _) schedule
    { shared :=
        ({ p with
            runnerMap := GoMap.set p.runnerMap pipelineId (some h.runners.length) },
          { runners := h.runners ++ [o], constructed := h.constructed ++ [pipelineId] }),
      first := Pc.done (some h.runners.length), second := Pc.check } rfl rfl (Or.inl rfl)
  simp only [race, List.foldl_append, h4]
  refine ⟨hinv.2.1, by rw [hinv.1], hinv.2.2, ?_⟩
  have h6 : [false, false, false, false, true, true]
      = [false, false, false, false] ++ [true, true] := rfl
  rw [h6, List.foldl_append, h4]
  simp [raceStep, callStep, lookup_set_self]

theorem nonoverlapping_calls_share_one_runner_witness :
    (race exampleRunners "a" exampleStart.1 exampleStart.2
        ([false, false, false, false] ++ [true, false, true])).first = Pc.done (some 0) ∧
    (race exampleRunners "a" exampleStart.1 exampleStart.2
        ([false, false, false, false] ++ [true, false, true])).shared.2.constructed
      = [] ++ ["a"] ∧
    (race exampleRunners "a" exampleStart.1 exampleStart.2
        [false, false, false, false, true, true]).second = Pc.done (some 0) :=
  ⟨(nonoverlapping_calls_share_one_runner exampleRunners exampleStart.1 exampleStart.2 "a"
      ("a", 0) (by decide) (by decide) [true, false, true]).1,
   (nonoverlapping_calls_share_one_runner exampleRunners exampleStart.1 exampleStart.2 "a"
      ("a", 0) (by decide) (by decide) [true, false, true]).2.1,
   (nonoverlapping_calls_share_one_runner exampleRunners exampleStart.1 exampleStart.2 "a"
      ("a", 0) (by decide) (by decide) [true, false, true]).2.2.2⟩

/-- C12 (counterexample): two first-time calls of `GetRunner` for the unseen id "a" that
overlap. Both test the registry before either stores a runner, so both construct: the
constructor is called twice for "a", the first call returns the runner at address 0, the
second call the runner at address 1, and the registry keeps the second one. -/
theorem overlapping_calls_construct_two_runners :
    lookup exampleStart.1 "a" = none ∧
    race exampleRunners "a" exampleStart.1 exampleStart.2
        [false, true, false, false, false, true, true, true]
      = { shared := ({ exampleStart.1 with runnerMap := [("a", some 1)] },
            { runners := [("a", 0), ("a", 0)], constructed := ["a", "a"] }),
          first := Pc.done (some 0), second := Pc.done (some 1) } :=
  ⟨by decide, by rfl⟩

end manager

namespace http

/-- A call of `sendToSDC` that returns nil has issued one request, whose body is the
argument, compressed when the compression is GZIP. -/
theorem sendToSDC_ok_body (env : Env) (h : HttpClientDestination) (sent : List Request)
    (body : String) (hok : (sendToSDC env h sent body).1 = Except.ok none) :
    ∃ q, sendToSDC env h sent body = (Except.ok none, sent ++ [q]) ∧
      q.body = (if h.httpCompression = "GZIP" then env.gzip body else body) := by
  unfold sendToSDC at hok ⊢
  simp only at hok ⊢
  split at hok
  · simp at hok
  · rename_i hurl
    simp only [hurl, if_false]
    split at hok
    · simp at hok
    · split at hok
      · simp at hok
      · simp only at hok
        exact ⟨_, by rw [hok]; rfl, rfl⟩

theorem foldl_append_left (l : List String) : ∀ x y : String,
    List.foldl (fun r s => r ++ s) (x ++ y) l = x ++ List.foldl (fun r s => r ++ s) y l := by
  induction l with
  | nil => intro x y; rfl
  | cons z l ihl => intro x y; simp only [List.foldl_cons, String.append_assoc, ihl]

/-- The loop variable `batchByteArray` after the loop: the bytes of each record followed by a
newline, joined in batch order behind what it held before. -/
theorem String_join_lines (bs : List String) : ∀ acc : String,
    bs.foldl (fun a b => a ++ b ++ "\n") acc
      = acc ++ String.join (bs.map (fun b => b ++ "\n")) := by
  induction bs with
  | nil => intro acc; simp [String.join]
  | cons b bs ih =>
    intro acc
    rw [List.foldl_cons, ih, List.map_cons]
    unfold String.join
    rw [List.foldl_cons, String.empty_append]
    have h1 := foldl_append_left (bs.map (fun b => b ++ "\n")) (b ++ "\n") ""
    rw [String.append_empty] at h1
    rw [h1, String.append_assoc, String.append_assoc, String.append_assoc]

/-- One pass of the loop of `Write` over a value with bytes `b`. -/
theorem writeLoop_cons_bytes (env : Env) (h : HttpClientDestination) (v : Value)
    (vs : List Value) (b : String) (hb : bytes env v = Except.ok b) (err : Option String)
    (acc : String) (sent : List Request) :
    ∃ err1, writeLoop env h (v :: vs) err acc sent =
      if h.singleRequestPerBatch then writeLoop env h vs err1 (acc ++ b ++ "\n") sent
      else
        match sendToSDC env h sent b with
        | (Except.error e, sent1) => (Except.error e, sent1)
        | (Except.ok (some e), sent1) => (Except.ok (LoopExit.returned e), sent1)
        | (Except.ok none, sent1) => writeLoop env h vs none acc sent1 := by
  cases v with
  | str s =>
    simp only [bytes, Except.ok.injEq] at hb
    subst hb
    exact ⟨err, by simp only [writeLoop]⟩
  | _ =>
    simp only [bytes] at hb
    exact ⟨none, by simp only [writeLoop, hb]⟩

theorem writeLoop_bodies_each (env : Env) (h : HttpClientDestination)
    (hs : h.singleRequestPerBatch = false)
    (hok : ∀ s b, (sendToSDC env h s b).1 = Except.ok none) (batch : List Value) :
    ∀ (bs : List String) (err : Option String) (acc : String) (sent : List Request),
      batch.map (bytes env) = bs.map Except.ok →
      ∃ err1 new, writeLoop env h batch err acc sent
          = (Except.ok (LoopExit.finished err1 acc), sent ++ new) ∧
        new.map (fun q => q.body)
          = bs.map (fun b => if h.httpCompression = "GZIP" then env.gzip b else b) := by
  induction batch with
  | nil =>
    intro bs err acc sent hser
    cases bs with
    | nil => exact ⟨err, [], by simp [writeLoop], rfl⟩
    | cons b bs => simp at hser
  | cons v vs ih =>
    intro bs err acc sent hser
    cases bs with
    | nil => simp at hser
    | cons b bs =>
      simp only [List.map_cons, List.cons.injEq] at hser
      obtain ⟨err0, hstep⟩ := writeLoop_cons_bytes env h v vs b hser.1 err acc sent
      obtain ⟨q, hq, hbody⟩ := sendToSDC_ok_body env h sent b (hok sent b)
      obtain ⟨err1, new, hl, hnew⟩ := ih bs none acc (sent ++ [q]) hser.2
      refine ⟨err1, q :: new, ?_, ?_⟩
      · rw [hstep]
        simp only [hs, Bool.false_eq_true, if_false, hq, hl, List.append_assoc,
          List.singleton_append]
      · simp only [List.map_cons, hbody, hnew]

theorem writeLoop_bodies_single (env : Env) (h : HttpClientDestination)
    (hs : h.singleRequestPerBatch = true) (batch : List Value) :
    ∀ (bs : List String) (err : Option String) (acc : String) (sent : List Request),
      batch.map (bytes env) = bs.map Except.ok →
      ∃ err1, writeLoop env h batch err acc sent
        = (Except.ok (LoopExit.finished err1 (bs.foldl (fun a b => a ++ b ++ "\n") acc)),
            sent) := by
  induction batch with
  | nil =>
    intro bs err acc sent hser
    cases bs with
    | nil => exact ⟨err, by simp [writeLoop]⟩
    | cons b bs => simp at hser
  | cons v vs ih =>
    intro bs err acc sent hser
    cases bs with
    | nil => simp at hser
    | cons b bs =>
      simp only [List.map_cons, List.cons.injEq] at hser
      obtain ⟨err0, hstep⟩ := writeLoop_cons_bytes env h v vs b hser.1 err acc sent
      obtain ⟨err1, hl⟩ := ih bs err0 (acc ++ b ++ "\n") sent hser.2
      exact ⟨err1, by rw [hstep]; simp only [hs, if_true, hl, List.foldl_cons]⟩

/-- C13: when every value serializes (the records of the batch have the bytes `bs`) and every
request succeeds (every call of `sendToSDC` returns nil), `Write` returns nil and hands to
`sendToSDC` exactly the bodies of the reference definition, in order: the requests it issues
are one per reference body and carry these bodies (compressed when the compression is GZIP).
In single-request mode that is the one concatenation of the bytes of each record followed by
a newline, and no request at all for the empty batch; in the other mode the bytes of each
record. -/
theorem Write_request_bodies (env : Env) (h : HttpClientDestination) (sent : List Request)
    (batch : List Value) (bs : List String)
    (hser : batch.map (bytes env) = bs.map Except.ok)
    (hok : ∀ s b, (sendToSDC env h s b).1 = Except.ok none) :
    (Write env h sent batch).1 = Except.ok none ∧
    ∃ new, (Write env h sent batch).2 = sent ++ new ∧
      new.map (fun q => q.body)
        = (referenceBodies h.singleRequestPerBatch bs).map
            (fun b => if h.httpCompression = "GZIP" then env.gzip b else b) := by
  have hlen : batch.length = bs.length := by
    have := congrArg List.length hser
    simpa using this
  cases hs : h.singleRequestPerBatch with
  | false =>
    obtain ⟨err1, new, hl, hnew⟩ := writeLoop_bodies_each env h hs hok batch bs none "" sent hser
    have herr := writeLoop_finished_err env h batch "" sent err1 "" (sent ++ new) hl
    subst herr
    unfold Write
    simp only [hl, hs, Bool.false_eq_true, false_and, if_false, referenceBodies]
    exact ⟨trivial, new, rfl, hnew⟩
  | true =>
    obtain ⟨err1, hl⟩ := writeLoop_bodies_single env h hs batch bs none "" sent hser
    have herr := writeLoop_finished_err env h batch "" sent err1 _ sent hl
    subst herr
    unfold Write
    simp only [hl, hs, true_and, referenceBodies, if_true]
    cases bs with
    | nil =>
      have hb : batch = [] := List.eq_nil_of_length_eq_zero hlen
      subst hb
      simp
    | cons b bs =>
      have hpos : batch.length > 0 := by rw [hlen]; simp
      obtain ⟨q, hq, hbody⟩ := sendToSDC_ok_body env h sent
        ((b :: bs).foldl (fun a b => a ++ b ++ "\n") "") (hok _ _)
      simp only [hpos, if_true, hq, reduceCtorEq, if_false, List.map_cons, List.map_nil]
      refine ⟨trivial, [q], rfl, ?_⟩
      rw [List.map_cons, List.map_nil, hbody, String_join_lines, String.empty_append,
        List.map_cons]

theorem Write_request_bodies_witness :
    (Write exampleEnvOk { exampleStage with singleRequestPerBatch := true } []
        [Value.str "a", Value.num 5]).1 = Except.ok none ∧
    ∃ new, (Write exampleEnvOk { exampleStage with singleRequestPerBatch := true } []
        [Value.str "a", Value.num 5]).2 = [] ++ new ∧
      new.map (fun q => q.body)
        = (referenceBodies true ["a", "5"]).map
            (fun b => if "" = "GZIP" then exampleEnvOk.gzip b else b) :=
  Write_request_bodies exampleEnvOk { exampleStage with singleRequestPerBatch := true } []
    [Value.str "a", Value.num 5] ["a", "5"] (by rfl) (fun _ _ => rfl)

end http
